import Mathlib

/-!
# http_lru: admission-controlled cache service

A shallow embedding of `main.go` (package `main` of `dilyevsky/http_lru`):
`CacheSrv.Get`, `newThrottler`, `populateTestData` and `main`, together with
a model of the `cache` package the service is built on.

Conventions.
* A Go `string` and a Go `[]byte` are both finite byte sequences; the
  conversions `[]byte(s)` and `string(b)` copy the bytes.
* A Go `error` is represented by its text; `nil` is `none`.
* `chan struct{}` carries indistinguishable tokens, so a channel is its
  capacity and the number of buffered elements.
* Everything the program reads from outside (which case of the `select`
  fires, the file contents, whether the database opens) is an explicit input.
-/

namespace HttpLru

/-! ## Bytes, strings, errors -/

abbrev Byte := UInt8

/-- A Go `[]byte`. -/
abbrev ByteSlice := List Byte

/-- A Go `string`: an immutable byte sequence. -/
abbrev GoString := List Byte

/-- The conversion `[]byte(s)`. -/
def bytesOf (s : GoString) : ByteSlice := s

/-- The conversion `string(b)`. -/
def stringOf (b : ByteSlice) : GoString := b

/-- A source-code string literal (UTF-8 encoded, as the Go compiler does). -/
def goLit (s : String) : GoString := s.toUTF8.data.toList

/-- A Go `error` value, by its text; `none` is `nil`. -/
abbrev GoError := Option GoString

/-- The value `errors.New("timed out: too many ongoing requests")` (line 49). -/
def errTimedOut : GoString := goLit "timed out: too many ongoing requests"

/-- The value `fmt.Errorf("record not found for: %v", key)` (line 55): the verb
`%v` applied to a string prints its bytes as they are. -/
def errNotFound (key : GoString) : GoString := goLit "record not found for: " ++ key

/-! ## Channels of `struct{}` -/

/-- A `chan struct{}`: `cap` is the buffer size given to `make`, `len` the
number of buffered tokens. The Go runtime keeps `len ≤ cap`. -/
structure Chan where
  cap : Nat
  len : Nat
  deriving DecidableEq, Repr

/-- The runtime invariant of a buffered channel. -/
def Chan.WF (ch : Chan) : Prop := ch.len ≤ ch.cap

instance (ch : Chan) : Decidable ch.WF := by unfold Chan.WF; infer_instance

/-- The receive `<-ch`: takes one buffered token; `none` when the buffer is
empty (the receive is not ready and the goroutine would wait). -/
def Chan.recv (ch : Chan) : Option Chan :=
  if 0 < ch.len then some { ch with len := ch.len - 1 } else none

/-- The send `ch <- struct{}{}`: buffers one token; `none` when the buffer is
full (the send would block). -/
def Chan.send (ch : Chan) : Option Chan :=
  if ch.len < ch.cap then some { ch with len := ch.len + 1 } else none

/-- The call `make(chan struct{}, size)`: panics on a negative size. -/
def makeChan (size : Int) : Option Chan :=
  if size < 0 then none else some { cap := size.toNat, len := 0 }

/-- The loop `for i := 0; i < allowed; i++ { ch <- struct{}{} }` of
`newThrottler`, with `todo` iterations left. -/
def fillChan : Nat → Chan → Option Chan
  | 0, ch => some ch
  | todo + 1, ch =>
    match ch.send with
    | none => none
    | some ch1 => fillChan todo ch1

/-- The function `newThrottler` (lines 63-69). `none` is the runtime panic of
`make` on a negative size (or a send that can never complete). -/
def newThrottler (allowed : Int) : Option Chan :=
  match makeChan allowed with
  | none => none
  | some ch => fillChan allowed.toNat ch

/-! ## The cache interface -/

/-- The interface `cache.LRUCache` as `main.go` uses it, over a state `σ`
(the receiver is mutated by both methods): `Get` returns `(v, ok)`, and the
result of `Add` is discarded. -/
structure LRUCache (σ : Type) where
  Get : σ → ByteSlice → (ByteSlice × Bool) × σ
  Add : σ → ByteSlice → ByteSlice → σ

/-! ## The service -/

/-- The struct `CacheSrv` (lines 30-33). -/
structure CacheSrv (σ : Type) where
  cache : σ
  allowedReqs : Chan

/-- The struct `GetArgs`. -/
structure GetArgs where
  Key : GoString
  deriving DecidableEq, Repr

/-- The struct `GetReply`. -/
structure GetReply where
  Value : GoString
  deriving DecidableEq, Repr

/-- What a run of the program does to the pool and the cache, in order. -/
inductive Event where
  | recv
  | send
  | cacheGet (key : ByteSlice)
  | cacheAdd (key value : ByteSlice)
  deriving DecidableEq, Repr

/-- Which case of the `select` statement (lines 46-50) fires. -/
inductive Select where
  | token
  | timeout
  deriving DecidableEq, Repr

/-- Lines 53-58 of `CacheSrv.Get`: the part that runs while the token is held.
Returns the cache afterwards, the reply afterwards and the error to return. -/
def getBody {σ : Type} (I : LRUCache σ) (c : σ) (args : GetArgs) (reply : GetReply) :
    σ × GetReply × GoError :=
  let r := I.Get c (bytesOf args.Key)
  if !r.1.2 then
    (r.2, reply, some (errNotFound args.Key))
  else
    (r.2, { reply with Value := stringOf r.1.1 }, none)

/-- The outcome of one call of `CacheSrv.Get`. -/
structure GetResult (σ : Type) where
  srv : CacheSrv σ
  reply : GetReply
  err : GoError
  trace : List Event

/-- The method `CacheSrv.Get` (lines 45-59), run with no other goroutine
touching the pool in between. `sel` says which `select` case fires; the
result is `none` when that case cannot fire in this state (no token to
receive) or when the deferred send could not complete. -/
def CacheSrv.Get {σ : Type} (I : LRUCache σ) (s : CacheSrv σ) (sel : Select)
    (args : GetArgs) (reply : GetReply) : Option (GetResult σ) :=
  match sel with
  | .timeout =>
    some { srv := s, reply := reply, err := some errTimedOut, trace := [] }
  | .token =>
    match s.allowedReqs.recv with
    | none => none
    | some ch1 =>
      let b := getBody I s.cache args reply
      match ch1.send with
      | none => none
      | some ch2 =>
        some { srv := { cache := b.1, allowedReqs := ch2 }, reply := b.2.1, err := b.2.2,
               trace := [Event.recv, Event.cacheGet (bytesOf args.Key), Event.send] }

/-! ## Concurrent calls

Each call of `CacheSrv.Get` runs in its own goroutine. A call is split at
the points where it touches shared state: the `select`, the body (the cache
serialises its operations under its own lock), and the deferred send. -/

/-- Where a call of `CacheSrv.Get` stands. -/
inductive Pc where
  /-- At the `select` statement, lines 46-50. -/
  | atSelect
  /-- Token received, `defer` registered, body (lines 53-58) not yet run. -/
  | holding
  /-- Body finished with this error; the deferred send is next. -/
  | releasing (err : GoError)
  /-- Returned this error to the caller. -/
  | returned (err : GoError)
  deriving DecidableEq, Repr

/-- One call of `CacheSrv.Get`. -/
structure Call where
  args : GetArgs
  reply : GetReply
  pc : Pc
  deriving DecidableEq, Repr

/-- The call has taken a token from the pool and not yet sent it back. -/
def Call.holdsToken (c : Call) : Bool :=
  match c.pc with
  | .holding => true
  | .releasing _ => true
  | _ => false

/-- The service together with the calls of `Get` made so far. -/
structure Sys (σ : Type) where
  srv : CacheSrv σ
  calls : List Call

/-- Tokens checked out: calls between their receive and their deferred send. -/
def Sys.outstanding {σ : Type} (s : Sys σ) : Nat := s.calls.countP Call.holdsToken

/-- One atomic step of one goroutine. -/
inductive Action where
  /-- The transport calls `Get` with these arguments. -/
  | arrive (args : GetArgs) (reply : GetReply)
  /-- Call `i` receives from `allowedReqs` (line 47). -/
  | acquire (i : Nat)
  /-- The timer of call `i` fires first (lines 48-49). -/
  | timeout (i : Nat)
  /-- Call `i` runs lines 53-58. -/
  | body (i : Nat)
  /-- Call `i` runs its deferred send (line 51) and returns. -/
  | release (i : Nat)
  deriving DecidableEq, Repr

/-- One step of the system; `none` when the action is not enabled: no such
call, the call is elsewhere in its code, the pool is empty for a receive, or
the pool is full for a send. -/
def Sys.step {σ : Type} (I : LRUCache σ) (s : Sys σ) : Action → Option (Sys σ)
  | .arrive args reply =>
    some { s with calls := s.calls ++ [{ args := args, reply := reply, pc := .atSelect }] }
  | .acquire i =>
    match s.calls[i]? with
    | some c =>
      match c.pc, s.srv.allowedReqs.recv with
      | .atSelect, some ch =>
        some { srv := { s.srv with allowedReqs := ch },
               calls := s.calls.set i { c with pc := .holding } }
      | _, _ => none
    | none => none
  | .timeout i =>
    match s.calls[i]? with
    | some c =>
      match c.pc with
      | .atSelect => some { s with calls := s.calls.set i { c with pc := .returned (some errTimedOut) } }
      | _ => none
    | none => none
  | .body i =>
    match s.calls[i]? with
    | some c =>
      match c.pc with
      | .holding =>
        let b := getBody I s.srv.cache c.args c.reply
        some { srv := { s.srv with cache := b.1 },
               calls := s.calls.set i { c with reply := b.2.1, pc := .releasing b.2.2 } }
      | _ => none
    | none => none
  | .release i =>
    match s.calls[i]? with
    | some c =>
      match c.pc, s.srv.allowedReqs.send with
      | .releasing err, some ch =>
        some { srv := { s.srv with allowedReqs := ch },
               calls := s.calls.set i { c with pc := .returned err } }
      | _, _ => none
    | none => none

/-- A schedule: the actions taken one after the other. -/
def Sys.run {σ : Type} (I : LRUCache σ) : Sys σ → List Action → Option (Sys σ)
  | s, [] => some s
  | s, a :: rest =>
    match s.step I a with
    | none => none
    | some s1 => Sys.run I s1 rest

/-- The service as `main` registers it: no call made yet. -/
def Sys.init {σ : Type} (c : σ) (pool : Chan) : Sys σ :=
  { srv := { cache := c, allowedReqs := pool }, calls := [] }

/-! ## Pre-population -/

/-- The byte `:`. -/
def colon : Byte := 58

/-- The call `strings.Split(s, sep)` for a one-byte separator: the pieces of
`s` between occurrences of `sep`, in order (one more piece than there are
occurrences; `[""]` for the empty string). -/
def stringsSplit (sep : Byte) : GoString → List GoString
  | [] => [[]]
  | b :: rest =>
    if b = sep then
      [] :: stringsSplit sep rest
    else
      match stringsSplit sep rest with
      | [] => [[b]]
      | p :: ps => (b :: p) :: ps

/-- The places where the program ends through `log.Fatal`. -/
inductive Fatal where
  /-- Line 74: `os.Open` failed. -/
  | openFile (err : GoString)
  /-- Line 82. -/
  | invalidFormat
  /-- Line 89: the scanner stopped on an error. -/
  | scan (err : GoString)
  /-- Line 107: `badger.Open` failed. -/
  | openDb (err : GoString)
  deriving DecidableEq, Repr

/-- The text `log.Fatal` prints. -/
def Fatal.message : Fatal → GoString
  | .openFile err => err
  | .invalidFormat => goLit "invalid test data format"
  | .scan err => err
  | .openDb err => err

/-- The byte `\n`. -/
def newline : Byte := 10

/-- The byte `\r`. -/
def carriageReturn : Byte := 13

/-- The constant `bufio.MaxScanTokenSize`: the buffer of a scanner grows to at
most 64 KiB. -/
def maxScanTokenSize : Nat := 65536

/-- The value `bufio.ErrTooLong`. -/
def errTooLong : GoString := goLit "bufio.Scanner: token too long"

/-- What `os.Open(path)` and the reads on the file give: the bytes read, and
the error that ended the reads (`none` for `io.EOF`). -/
structure FileData where
  content : List Byte
  readErr : GoError

/-- The lines of a byte sequence as `bufio.ScanLines` cuts it: every run of
bytes that ends at a newline, and the run after the last newline when it is
not empty. The newline is not part of the line. -/
def rawLines : List Byte → List (List Byte)
  | [] => []
  | b :: rest =>
    if b = newline then
      [] :: rawLines rest
    else
      match rawLines rest with
      | [] => [[b]]
      | l :: ls => (b :: l) :: ls

/-- The function `dropCR` of `bufio.ScanLines`: one trailing `\r` is removed. -/
def dropCR (l : List Byte) : GoString :=
  if l.getLast? = some carriageReturn then l.dropLast else l

/-- A line that the scanner can deliver: it fits, with its newline, into the
64 KiB buffer. On a longer line `Scan` stops with `bufio.ErrTooLong`. -/
def fitsBuffer (l : List Byte) : Bool := l.length < maxScanTokenSize

/-- A file as `bufio.Scanner` delivers it: the successive values of
`scanner.Text()` and the final `scanner.Err()`. -/
structure Scanned where
  lines : List GoString
  err : GoError

/-- The scanner `bufio.NewScanner(f)` run to its end (default split function
`ScanLines`, default buffer): it delivers the lines before the first one
that does not fit the buffer, each without its end-of-line marker; its error
is `ErrTooLong` when a line did not fit, the read error (if any) otherwise. -/
def scanFile (f : FileData) : Scanned :=
  { lines := ((rawLines f.content).takeWhile fitsBuffer).map dropCR,
    err := if (rawLines f.content).all fitsBuffer then f.readErr else some errTooLong }

/-- The outcome of `populateTestData`: the cache afterwards, the calls made on
it, and the `log.Fatal` that ended the process, if one did. -/
structure PopResult (σ : Type) where
  cache : σ
  trace : List Event
  fatal : Option Fatal

/-- The loop of lines 79-86 over the lines still to be scanned. -/
def scanLoop {σ : Type} (I : LRUCache σ) : σ → List GoString → PopResult σ
  | c, [] => { cache := c, trace := [], fatal := none }
  | c, line :: rest =>
    let ss := stringsSplit colon line
    if ss.length ≠ 2 then
      { cache := c, trace := [], fatal := some .invalidFormat }
    else
      let k := bytesOf (ss.getD 0 [])
      let v := bytesOf (ss.getD 1 [])
      let r := scanLoop I (I.Add c k v) rest
      { r with trace := Event.cacheAdd k v :: r.trace }

/-- The function `populateTestData` (lines 71-92); `file` is what `os.Open`
gives for the path: an error, or the file. -/
def populateTestData {σ : Type} (I : LRUCache σ) (c : σ) (file : Except GoString FileData) :
    PopResult σ :=
  match file with
  | .error err => { cache := c, trace := [], fatal := some (.openFile err) }
  | .ok f =>
    let sc := scanFile f
    let r := scanLoop I c sc.lines
    match r.fatal, sc.err with
    | none, some err => { r with fatal := some (.scan err) }
    | _, _ => r

/-! ## Startup -/

/-- The command-line flags (lines 20-27); durations in nanoseconds. -/
structure Flags where
  port : Int
  maxCachedEntries : Int
  ttl : Int
  maxRPCs : Int
  rpcTimeout : Int
  testDataPath : GoString

/-- What `main` finds outside the process. -/
structure World where
  /-- The error of `badger.Open`. -/
  dbOpen : GoError
  /-- The file behind a path. -/
  openFile : GoString → Except GoString FileData
  /-- The error of `net.Listen` for a port in range that cannot be bound (in
  use, not permitted); `none` when the port can be bound. -/
  bind : Int → GoError
  /-- The text of the error of `net.Listen` for a port out of range. -/
  invalidPort : Int → GoString

/-- How far `main` gets. -/
inductive MainEnd (σ : Type) where
  /-- Ended by `log.Fatal` before line 116. -/
  | fatal (f : Fatal)
  /-- The constructor `cache.NewLRUCache` did not return. -/
  | noCache
  /-- Ended by the runtime panic of `make` inside `newThrottler`. -/
  | panicked
  /-- Line 118 registered this service, and `http.ListenAndServe` on line 120
  returned this error without accepting a request; `log.Fatal` ended the
  process. -/
  | listenFailed (srv : CacheSrv σ) (err : GoString)
  /-- Line 118 registered this service and `http.ListenAndServe` on line 120
  accepts requests on this port. -/
  | serving (srv : CacheSrv σ) (port : Int)

/-- The outcome of `main` with the calls made on the cache before it ends or
starts to serve. -/
structure MainResult (σ : Type) where
  trace : List Event
  outcome : MainEnd σ

/-- The error with which `http.ListenAndServe(fmt.Sprintf(":%d", port), nil)`
returns before it accepts a request: a port outside 0..65535 is invalid, a
port in range may fail to bind; `none` when the server starts to accept. -/
def listenError (w : World) (port : Int) : GoError :=
  if port < 0 ∨ 65535 < port then some (w.invalidPort port) else w.bind port

/-- The function `main` (lines 94-121). `newLRUCache` stands for
`cache.NewLRUCache(db, ·, ·)`, `none` when it ends the process. -/
def main {σ : Type} (I : LRUCache σ) (newLRUCache : Int → Int → Option σ)
    (fl : Flags) (w : World) : MainResult σ :=
  match w.dbOpen with
  | some err => { trace := [], outcome := .fatal (.openDb err) }
  | none =>
    match newLRUCache fl.maxCachedEntries fl.ttl with
    | none => { trace := [], outcome := .noCache }
    | some c =>
      let p : PopResult σ :=
        if fl.testDataPath ≠ [] then populateTestData I c (w.openFile fl.testDataPath)
        else { cache := c, trace := [], fatal := none }
      match p.fatal with
      | some f => { trace := p.trace, outcome := .fatal f }
      | none =>
        match newThrottler fl.maxRPCs with
        | none => { trace := p.trace, outcome := .panicked }
        | some pool =>
          match listenError w fl.port with
          | some err =>
            { trace := p.trace,
              outcome := .listenFailed { cache := p.cache, allowedReqs := pool } err }
          | none =>
            { trace := p.trace,
              outcome := .serving { cache := p.cache, allowedReqs := pool } fl.port }

/-! ## The cache package -/

/-- Modelled from the spec: the package `cache` is not among the sources. An
Entry: key, value bytes and the time of its last touch (nanoseconds). -/
structure Entry where
  key : ByteSlice
  value : ByteSlice
  touchedAt : Int
  deriving DecidableEq, Repr

/-- Modelled from the spec: the package `cache` is not among the sources. The
eviction engine behind `cache.LRUCache`: the entries from most recently used
(head) to least recently used (tail), the capacity, the time-to-live, and the
reading of the clock (the engine reads it on every operation). The value of
an entry stands for what the storage backend holds for its key. -/
structure LRU where
  entries : List Entry
  maxCachedEntries : Int
  ttl : Int
  now : Int
  deriving DecidableEq, Repr

/-- Modelled from the spec: the constructors `cache.NewSimpleLRUCache` and
`cache.NewLRUCache` are not among the sources. An empty engine of the given
capacity and time-to-live, the clock at zero. -/
def LRU.New (maxCachedEntries ttl : Int) : LRU :=
  { entries := [], maxCachedEntries := maxCachedEntries, ttl := ttl, now := 0 }

/-- The keys resident in the engine, most recently used first. -/
def LRU.keys (c : LRU) : List ByteSlice := c.entries.map Entry.key

/-- Time passes: the clock moves forward by `d`. -/
def LRU.wait (c : LRU) (d : Nat) : LRU := { c with now := c.now + d }

/-- Modelled from the spec: the method `Get` of the package `cache` is not
among the sources. Section 4.1: not-found for an absent key; an entry with
`now - touchedAt > ttl` is removed and reported not-found; otherwise
`touchedAt` is refreshed, the key moves to the head and the value is
returned. -/
def LRU.Get (c : LRU) (key : ByteSlice) : (ByteSlice × Bool) × LRU :=
  match c.entries.find? (fun e => e.key == key) with
  | none => (([], false), c)
  | some e =>
    if c.now - e.touchedAt > c.ttl then
      (([], false), { c with entries := c.entries.filter (fun x => x.key != key) })
    else
      ((e.value, true),
        { c with entries :=
            { e with touchedAt := c.now } :: c.entries.filter (fun x => x.key != key) })

/-- Modelled from the spec: the method `Add` of the package `cache` is not
among the sources. Section 4.1: a resident key gets the new value, a fresh
`touchedAt` and the head position; another key is inserted at the head and,
if occupancy then exceeds `maxCachedEntries`, the tail entry is evicted. -/
def LRU.Add (c : LRU) (key value : ByteSlice) : LRU :=
  let e : Entry := { key := key, value := value, touchedAt := c.now }
  if c.entries.any (fun x => x.key == key) then
    { c with entries := e :: c.entries.filter (fun x => x.key != key) }
  else if ((e :: c.entries).length : Int) > c.maxCachedEntries then
    { c with entries := (e :: c.entries).dropLast }
  else
    { c with entries := e :: c.entries }

/-- The modelled engine behind the interface `cache.LRUCache`. -/
def simpleLRU : LRUCache LRU := { Get := LRU.Get, Add := LRU.Add }

/-- An operation on the engine, or time passing between operations. -/
inductive Op where
  | add (key value : ByteSlice)
  | get (key : ByteSlice)
  | wait (d : Nat)
  deriving DecidableEq, Repr

/-- The engine after an operation. -/
def LRU.apply (c : LRU) : Op → LRU
  | .add k v => c.Add k v
  | .get k => (c.Get k).2
  | .wait d => c.wait d

/-- A touch of a key: when it happened, and the value when it was an `Add`. -/
structure Touch where
  key : ByteSlice
  time : Int
  added : Option ByteSlice
  deriving DecidableEq, Repr

/-- The touch an operation makes: an `Add` touches its key and sets the value,
a `Get` that finds its entry touches its key; nothing otherwise. -/
def LRU.touched (c : LRU) : Op → Option Touch
  | .add k v => some { key := k, time := c.now, added := some v }
  | .get k => if (c.Get k).1.2 then some { key := k, time := c.now, added := none } else none
  | .wait _ => none

/-- An engine with the log of the touches made so far, latest touch first. -/
structure Logged where
  cache : LRU
  log : List Touch

/-- One operation, logged. -/
def Logged.step (t : Logged) (op : Op) : Logged :=
  { cache := t.cache.apply op,
    log := match t.cache.touched op with
      | some x => x :: t.log
      | none => t.log }

/-- A history of operations, logged. -/
def Logged.run (t : Logged) (ops : List Op) : Logged := ops.foldl Logged.step t

/-- The history of a new engine. -/
def history (maxCachedEntries ttl : Int) (ops : List Op) : Logged :=
  Logged.run { cache := LRU.New maxCachedEntries ttl, log := [] } ops

/-- The keys of the touches, latest touch first. -/
def touchedKeys (log : List Touch) : List ByteSlice := log.map Touch.key

/-- The time of the latest touch of a key. -/
def lastTouch (log : List Touch) (key : ByteSlice) : Option Int :=
  (log.find? (fun x => x.key == key)).map Touch.time

/-- The value of the latest `Add` of a key. -/
def lastAdded (log : List Touch) (key : ByteSlice) : Option ByteSlice :=
  (log.find? (fun x => x.key == key && x.added.isSome)).bind Touch.added

/-- The time that passes during a history: the sum of its waits. -/
def elapsed : List Op → Int
  | [] => 0
  | .wait d :: rest => d + elapsed rest
  | .add _ _ :: rest => elapsed rest
  | .get _ :: rest => elapsed rest

/-- Modelled from the spec: the package `cache` is not among the sources. The
engine over the Durable storage backend (section 4.2): the eviction engine
together with, for every key, whether the backend read and the backend write
of its value fail (disk error, corruption). -/
structure Durable where
  engine : LRU
  readFails : ByteSlice → Bool
  writeFails : ByteSlice → Bool

/-- Modelled from the spec: the method `Get` of the package `cache` is not
among the sources. Section 4.1 over the Durable backend: not-found for an
absent or expired key, otherwise the one backend read. Section 4.1 gives
`Get` the result `(value, found)`, and `main.go` receives exactly these two
values: a read that fails yields no value, so `found` is false, and the
ordering structure stays as it was. -/
def Durable.Get (d : Durable) (key : ByteSlice) : (ByteSlice × Bool) × Durable :=
  match d.engine.entries.find? (fun e => e.key == key) with
  | none => (([], false), d)
  | some e =>
    if d.engine.now - e.touchedAt > d.engine.ttl then
      (([], false), { d with engine := (d.engine.Get key).2 })
    else if d.readFails key then
      (([], false), d)
    else
      ((d.engine.Get key).1, { d with engine := (d.engine.Get key).2 })

/-- Modelled from the spec: the method `Add` of the package `cache` is not
among the sources. Section 4.1 over the Durable backend: when the backend
write fails the ordering structure is left in its state before the call. -/
def Durable.Add (d : Durable) (key value : ByteSlice) : Durable :=
  if d.writeFails key then d else { d with engine := d.engine.Add key value }

/-- The modelled engine over the Durable backend, behind the interface
`cache.LRUCache`. -/
def durableLRU : LRUCache Durable := { Get := Durable.Get, Add := Durable.Add }

/-! ## Definitions used in the statements -/

/-- The key `testKey1` of the test suite. -/
def testKey1 : GoString := goLit "testKey1"

/-- A service over a new engine of capacity 2 with one admission token, as
`runTests` builds it. -/
def testSrv : CacheSrv LRU :=
  { cache := LRU.New 2 1000000000, allowedReqs := { cap := 1, len := 1 } }

/-- The service of `runTests` after `Add(testKey1, testVal1)`. -/
def testSrv1 : CacheSrv LRU :=
  { testSrv with cache := testSrv.cache.Add testKey1 (goLit "testVal1") }

/-- The pool invariant: the capacity is `n`, and the tokens in the pool plus
the tokens held by calls make `n`. -/
def Sys.Balanced {σ : Type} (s : Sys σ) (n : Nat) : Prop :=
  s.srv.allowedReqs.cap = n ∧ s.srv.allowedReqs.len + s.outstanding = n

/-- A schedule of two concurrent calls on a pool of one token: both arrive,
the first is admitted, the second times out, the first runs its body. -/
def testSchedule : List Action :=
  [.arrive ⟨testKey1⟩ ⟨[]⟩, .arrive ⟨testKey1⟩ ⟨[]⟩, .acquire 0, .timeout 1, .body 0]

/-- The text of a line before its first `:`. -/
def textBefore (l : GoString) : GoString := l.takeWhile (fun b => b != colon)

/-- The text of a line after its first `:`. -/
def textAfter (l : GoString) : GoString := (l.dropWhile (fun b => b != colon)).drop 1

/-- The `Add` a well-formed line leads to. -/
def addOfLine (l : GoString) : Event := Event.cacheAdd (bytesOf (textBefore l)) (bytesOf (textAfter l))

/-- A line is well formed: it holds exactly one `:`. -/
def wellFormed (l : GoString) : Bool := l.count colon == 1

/-- The cache after the `Add` of every line, in order. -/
def addLines {σ : Type} (I : LRUCache σ) (c : σ) (lines : List GoString) : σ :=
  lines.foldl (fun c l => I.Add c (bytesOf (textBefore l)) (bytesOf (textAfter l))) c

/-- A file of two well-formed lines, the second without a final newline. -/
def testFile : FileData :=
  { content := goLit "k1:v1" ++ newline :: goLit "k2:v2", readErr := none }

/-- A line `k:vvv…` with one `:` and a value of 64 KiB. -/
def longLine : List Byte := goLit "k:" ++ List.replicate maxScanTokenSize 118

/-- A file of two lines, each with exactly one `:`, the second of them
`longLine`. -/
def tooLongFile : FileData :=
  { content := goLit "k1:v1" ++ newline :: longLine, readErr := none }

/-- A line of 64 KiB without any `:`. -/
def longBadLine : List Byte := List.replicate maxScanTokenSize 120

/-- A file whose only line is `longBadLine`. -/
def longBadFile : FileData := { content := longBadLine, readErr := none }

/-- The text of a file in which every line ends with a newline. -/
def joinLines (ls : List (List Byte)) : List Byte :=
  ls.foldr (fun l acc => l ++ newline :: acc) []

/-- The flags at their defaults (lines 21-26), except `max_concurrent_reqs`,
which is 0. -/
def zeroPoolFlags : Flags :=
  { port := 8080, maxCachedEntries := 1000, ttl := 3600000000000, maxRPCs := 0,
    rpcTimeout := 60000000000, testDataPath := [] }

/-- A world in which the database opens, no file exists and every port in
range can be bound. -/
def plainWorld : World :=
  { dbOpen := none, openFile := fun _ => .error (goLit "no such file"),
    bind := fun _ => none, invalidPort := fun _ => goLit "invalid port" }

/-- The modelled constructor, as `main` calls it. -/
def newSimple (maxCachedEntries ttl : Int) : Option LRU := some (LRU.New maxCachedEntries ttl)

/-- The resident keys stand in the order of their latest touches (a key nearer
the head was touched later), and every resident key has been touched. -/
def Logged.Ordered (t : Logged) : Prop :=
  t.cache.keys.Pairwise
      (fun a b => (touchedKeys t.log).indexOf a < (touchedKeys t.log).indexOf b) ∧
    ∀ k ∈ t.cache.keys, k ∈ touchedKeys t.log

/-- Every resident entry carries the time of the latest touch of its key and
the value of the latest `Add` of its key. -/
def Logged.Synced (t : Logged) : Prop :=
  ∀ e ∈ t.cache.entries,
    lastTouch t.log e.key = some e.touchedAt ∧ lastAdded t.log e.key = some e.value

/-- A Durable engine in which `testKey1` is resident and every backend read
fails. -/
def faultyStore : Durable :=
  { engine := (LRU.New 2 1000000000).Add (goLit "testKey1") (goLit "testVal1"),
    readFails := fun _ => true, writeFails := fun _ => false }

/-- The keys and values of the test suite. -/
def testKey2 : GoString := goLit "testKey2"

def testKey3 : GoString := goLit "testKey3"

def testKey4 : GoString := goLit "testKey4"

def testKey5 : GoString := goLit "testKey5"

def testVal1 : GoString := goLit "testVal1"

def testVal2 : GoString := goLit "testVal2"

def testVal3 : GoString := goLit "testVal3"

def testVal4 : GoString := goLit "testVal4"

def testVal5 : GoString := goLit "testVal5"

/-- The first two `Add` calls of `runTests`. -/
def twoAdds : List Op := [.add testKey1 testVal1, .add testKey2 testVal2]

/-- The operations of `runTests` up to its first `Get`. -/
def runTestsOps1 : List Op :=
  [.add testKey1 testVal1, .add testKey2 testVal2, .add testKey3 testVal3]

/-- The operations of `runTests` up to the `Add` of `testKey4`. -/
def runTestsOps2 : List Op :=
  runTestsOps1 ++ [.get testKey3, .get testKey2, .get testKey1, .add testKey4 testVal4]

/-- All the operations of `runTests` up to its last `Get`. -/
def runTestsOps3 : List Op :=
  runTestsOps2 ++ [.get testKey3, .add testKey2 testVal2, .add testKey5 testVal5]

/-- The error and the reply value of an admitted `Get` on the engine reached
by a history, with the one-token pool of `runTests`. -/
def getAfter (ops : List Op) (key : GoString) : Option (GoError × GoString) :=
  (CacheSrv.Get simpleLRU
    { cache := (history 2 1000000000 ops).cache, allowedReqs := { cap := 1, len := 1 } }
    .token ⟨key⟩ ⟨[]⟩).map (fun r => (r.err, r.reply.Value))

/-! ## Lemmas on channels -/

theorem recv_of_pos (ch : Chan) (h : 0 < ch.len) :
    ch.recv = some { cap := ch.cap, len := ch.len - 1 } := by
  simp [Chan.recv, h]

theorem send_of_lt (ch : Chan) (h : ch.len < ch.cap) :
    ch.send = some { cap := ch.cap, len := ch.len + 1 } := by
  simp [Chan.send, h]

theorem send_recv_of_pos (ch : Chan) (hwf : ch.WF) (h : 0 < ch.len) :
    Chan.send { cap := ch.cap, len := ch.len - 1 } = some ch := by
  unfold Chan.WF at hwf
  have h1 : ch.len - 1 < ch.cap := by omega
  have h2 : ch.len - 1 + 1 = ch.len := by omega
  simp [Chan.send, h1, h2]

/-- An admitted call of `Get` in closed form. -/
theorem get_token_eq {σ : Type} (I : LRUCache σ) (s : CacheSrv σ) (args : GetArgs)
    (reply : GetReply) (hwf : s.allowedReqs.WF) (htok : 0 < s.allowedReqs.len) :
    CacheSrv.Get I s .token args reply =
      some { srv := { cache := (getBody I s.cache args reply).1, allowedReqs := s.allowedReqs },
             reply := (getBody I s.cache args reply).2.1,
             err := (getBody I s.cache args reply).2.2,
             trace := [Event.recv, Event.cacheGet (bytesOf args.Key), Event.send] } := by
  simp only [CacheSrv.Get, recv_of_pos _ htok, send_recv_of_pos _ hwf htok]

/-- An admitted call of `Get` is the schedule arrive, receive, body, deferred
send of the concurrent system, run with no other call in between. -/
theorem get_token_schedule {σ : Type} (I : LRUCache σ) (s : CacheSrv σ) (args : GetArgs)
    (reply : GetReply) (hwf : s.allowedReqs.WF) (htok : 0 < s.allowedReqs.len) :
    Sys.run I { srv := s, calls := [] }
        [.arrive args reply, .acquire 0, .body 0, .release 0] =
      some { srv := { cache := (getBody I s.cache args reply).1, allowedReqs := s.allowedReqs },
             calls := [{ args := args, reply := (getBody I s.cache args reply).2.1,
                         pc := .returned (getBody I s.cache args reply).2.2 }] } := by
  simp [Sys.run, Sys.step, recv_of_pos _ htok, send_recv_of_pos _ hwf htok]

/-- A call of `Get` that times out is the schedule arrive, timeout. -/
theorem get_timeout_schedule {σ : Type} (I : LRUCache σ) (s : CacheSrv σ) (args : GetArgs)
    (reply : GetReply) :
    Sys.run I { srv := s, calls := [] } [.arrive args reply, .timeout 0] =
      some { srv := s,
             calls := [{ args := args, reply := reply, pc := .returned (some errTimedOut) }] } :=
  rfl

/-! ## Claims on `CacheSrv.Get` -/

/-- C1: a call of `CacheSrv.Get` that takes a token from `allowedReqs` returns,
and sends exactly one token back before it does, whatever `cache.Get` reports
(found or not found); the pool after the call is the pool before it. -/
theorem get_returns_token {σ : Type} (I : LRUCache σ) (s : CacheSrv σ) (args : GetArgs)
    (reply : GetReply) (hwf : s.allowedReqs.WF) (htok : 0 < s.allowedReqs.len) :
    ∃ r, CacheSrv.Get I s .token args reply = some r ∧
      r.trace.count Event.recv = 1 ∧
      r.trace.count Event.send = 1 ∧
      r.trace.getLast? = some Event.send ∧
      r.srv.allowedReqs = s.allowedReqs ∧
      r.srv.allowedReqs.len = s.allowedReqs.len := by
  refine ⟨_, get_token_eq I s args reply hwf htok, ?_, ?_, ?_, rfl, rfl⟩
  · simp [List.count_cons]
  · simp [List.count_cons]
  · simp

theorem get_returns_token_witness :
    ∃ r, CacheSrv.Get simpleLRU testSrv1 .token ⟨testKey1⟩ ⟨[]⟩ = some r ∧
      r.trace.count Event.recv = 1 ∧
      r.trace.count Event.send = 1 ∧
      r.trace.getLast? = some Event.send ∧
      r.srv.allowedReqs = testSrv1.allowedReqs ∧
      r.srv.allowedReqs.len = testSrv1.allowedReqs.len :=
  get_returns_token simpleLRU testSrv1 ⟨testKey1⟩ ⟨[]⟩ (by decide) (by decide)

/-- C3: when the timeout case of the `select` fires, `CacheSrv.Get` returns the
error "timed out: too many ongoing requests", makes no call on the cache,
sends no token to the pool, and leaves the service and the reply as they
were. -/
theorem get_timeout {σ : Type} (I : LRUCache σ) (s : CacheSrv σ) (args : GetArgs)
    (reply : GetReply) :
    ∃ r, CacheSrv.Get I s .timeout args reply = some r ∧
      r.err = some (goLit "timed out: too many ongoing requests") ∧
      r.trace = [] ∧
      (∀ k, Event.cacheGet k ∉ r.trace) ∧
      Event.send ∉ r.trace ∧
      r.srv.cache = s.cache ∧
      r.srv.allowedReqs = s.allowedReqs ∧
      r.reply = reply :=
  ⟨_, rfl, rfl, rfl, by simp, by simp, rfl, rfl, rfl⟩

/-- C4: when the `cache.Get` of an admitted call reports not-found,
`CacheSrv.Get` returns the error whose text is "record not found for: "
followed by the requested key, and the reply is left as it was. -/
theorem get_not_found {σ : Type} (I : LRUCache σ) (s : CacheSrv σ) (args : GetArgs)
    (reply : GetReply) (hwf : s.allowedReqs.WF) (htok : 0 < s.allowedReqs.len)
    (hmiss : (I.Get s.cache (bytesOf args.Key)).1.2 = false) :
    ∃ r, CacheSrv.Get I s .token args reply = some r ∧
      r.err = some (goLit "record not found for: " ++ args.Key) ∧
      r.reply.Value = reply.Value ∧
      r.reply = reply := by
  refine ⟨_, get_token_eq I s args reply hwf htok, ?_, ?_, ?_⟩ <;>
    simp [getBody, hmiss, errNotFound]

theorem get_not_found_witness :
    ∃ r, CacheSrv.Get simpleLRU testSrv .token ⟨testKey1⟩ ⟨goLit "old"⟩ = some r ∧
      r.err = some (goLit "record not found for: " ++ testKey1) ∧
      r.reply.Value = goLit "old" ∧
      r.reply = ⟨goLit "old"⟩ :=
  get_not_found simpleLRU testSrv ⟨testKey1⟩ ⟨goLit "old"⟩ (by decide) (by decide) (by decide)

/-- C5: when the `cache.Get` of an admitted call returns `(v, true)`,
`CacheSrv.Get` returns a nil error and sets `reply.Value` to the string with
the bytes of `v`; the cache was called once, with the bytes of `args.Key`. -/
theorem get_found {σ : Type} (I : LRUCache σ) (s : CacheSrv σ) (args : GetArgs)
    (reply : GetReply) (v : ByteSlice) (hwf : s.allowedReqs.WF) (htok : 0 < s.allowedReqs.len)
    (hhit : (I.Get s.cache (bytesOf args.Key)).1 = (v, true)) :
    ∃ r, CacheSrv.Get I s .token args reply = some r ∧
      r.err = none ∧
      r.reply.Value = stringOf v ∧
      bytesOf r.reply.Value = v ∧
      r.trace = [Event.recv, Event.cacheGet (bytesOf args.Key), Event.send] ∧
      bytesOf args.Key = args.Key ∧
      r.srv.cache = (I.Get s.cache (bytesOf args.Key)).2 := by
  have hok : (I.Get s.cache (bytesOf args.Key)).1.2 = true := by rw [hhit]
  have hv : (I.Get s.cache (bytesOf args.Key)).1.1 = v := by rw [hhit]
  refine ⟨_, get_token_eq I s args reply hwf htok, ?_, ?_, ?_, rfl, rfl, ?_⟩
  · simp [getBody, hok]
  · simp [getBody, hok, hv]
  · show (getBody I s.cache args reply).2.1.Value = v
    simp [getBody, hok, hv, stringOf]
  · simp [getBody, hok]

theorem get_found_witness :
    ∃ r, CacheSrv.Get simpleLRU testSrv1 .token ⟨testKey1⟩ ⟨[]⟩ = some r ∧
      r.err = none ∧
      r.reply.Value = stringOf (goLit "testVal1") ∧
      bytesOf r.reply.Value = goLit "testVal1" ∧
      r.trace = [Event.recv, Event.cacheGet (bytesOf testKey1), Event.send] ∧
      bytesOf testKey1 = testKey1 ∧
      r.srv.cache = (simpleLRU.Get testSrv1.cache (bytesOf testKey1)).2 :=
  get_found simpleLRU testSrv1 ⟨testKey1⟩ ⟨[]⟩ (goLit "testVal1") (by decide) (by decide)
    (by decide)

/-- The two error texts of `CacheSrv.Get` differ, whatever the key. -/
theorem errTimedOut_ne_errNotFound (key : GoString) : errTimedOut ≠ errNotFound key := by
  intro h
  have h1 : errTimedOut.head? = some 116 := by decide
  have h2 : goLit "record not found for: " = 114 :: (goLit "record not found for: ").tail := by
    decide
  have h3 : (errNotFound key).head? = some 114 := by
    unfold errNotFound
    rw [h2]
    rfl
  rw [h, h3] at h1
  exact absurd h1 (by decide)

/-- C6 (as stated, refuted): in a Durable engine `testKey1` is resident and
not expired, and the backend read of its value fails. The admitted
`CacheSrv.Get` returns the error "record not found for: testKey1", the very
error the same call returns when the key is absent from the engine. -/
theorem get_fault_reported_not_found :
    testKey1 ∈ faultyStore.engine.keys ∧
    faultyStore.readFails (bytesOf testKey1) = true ∧
    (∃ r, CacheSrv.Get durableLRU
        { cache := faultyStore, allowedReqs := { cap := 1, len := 1 } }
        .token ⟨testKey1⟩ ⟨[]⟩ = some r ∧
      r.err = some (errNotFound testKey1)) ∧
    (∃ r, CacheSrv.Get durableLRU
        { cache := { faultyStore with engine := LRU.New 2 1000000000 },
          allowedReqs := { cap := 1, len := 1 } }
        .token ⟨testKey1⟩ ⟨[]⟩ = some r ∧
      r.err = some (errNotFound testKey1)) :=
  ⟨by decide, rfl, ⟨_, rfl, by decide⟩, ⟨_, rfl, by decide⟩⟩

/-- C6 (amended): a call of `CacheSrv.Get` returns, and its error is decided by
which `select` case fires and by the `ok` of `cache.Get` alone. A call that
times out returns the timeout error; an admitted call returns nil when
`cache.Get` reports found and "record not found for: key" when it reports
not-found, for whatever reason it does so; an admitted call returns no
other error. The timeout error differs from the not-found error. -/
theorem get_error_outcomes {σ : Type} (I : LRUCache σ) (s : CacheSrv σ)
    (args : GetArgs) (reply : GetReply)
    (hwf : s.allowedReqs.WF) (htok : 0 < s.allowedReqs.len) :
    (∃ r, CacheSrv.Get I s .timeout args reply = some r ∧ r.err = some errTimedOut) ∧
    (∃ r, CacheSrv.Get I s .token args reply = some r ∧
      ((I.Get s.cache (bytesOf args.Key)).1.2 = true → r.err = none) ∧
      ((I.Get s.cache (bytesOf args.Key)).1.2 = false →
        r.err = some (errNotFound args.Key)) ∧
      (r.err = none ∨ r.err = some (errNotFound args.Key))) ∧
    errTimedOut ≠ errNotFound args.Key := by
  refine ⟨⟨_, rfl, rfl⟩, ⟨_, get_token_eq I s args reply hwf htok, ?_, ?_, ?_⟩,
    errTimedOut_ne_errNotFound _⟩
  · intro hok
    simp [getBody, hok]
  · intro hok
    simp [getBody, hok]
  · cases hok : (I.Get s.cache (bytesOf args.Key)).1.2 with
    | true => exact Or.inl (by simp [getBody, hok])
    | false => exact Or.inr (by simp [getBody, hok])

theorem get_error_outcomes_witness :
    (∃ r, CacheSrv.Get durableLRU
        { cache := faultyStore, allowedReqs := { cap := 1, len := 1 } }
        .timeout ⟨testKey1⟩ ⟨[]⟩ = some r ∧ r.err = some errTimedOut) ∧
    (∃ r, CacheSrv.Get durableLRU
        { cache := faultyStore, allowedReqs := { cap := 1, len := 1 } }
        .token ⟨testKey1⟩ ⟨[]⟩ = some r ∧
      ((durableLRU.Get faultyStore (bytesOf testKey1)).1.2 = true → r.err = none) ∧
      ((durableLRU.Get faultyStore (bytesOf testKey1)).1.2 = false →
        r.err = some (errNotFound testKey1)) ∧
      (r.err = none ∨ r.err = some (errNotFound testKey1))) ∧
    errTimedOut ≠ errNotFound testKey1 :=
  get_error_outcomes durableLRU { cache := faultyStore, allowedReqs := { cap := 1, len := 1 } }
    ⟨testKey1⟩ ⟨[]⟩ (by decide) (by decide)

/-! ## The admission pool under concurrent calls -/

theorem fillChan_eq (k : Nat) (ch : Chan) (h : ch.len + k ≤ ch.cap) :
    fillChan k ch = some { cap := ch.cap, len := ch.len + k } := by
  induction k generalizing ch with
  | zero => rfl
  | succ k ih =>
    have hlt : ch.len < ch.cap := by omega
    simp only [fillChan, send_of_lt ch hlt]
    rw [ih _ (by simp only; omega)]
    simp only [Option.some.injEq, Chan.mk.injEq, true_and]
    omega

theorem newThrottler_eq (n : Int) (hn : 0 ≤ n) :
    newThrottler n = some { cap := n.toNat, len := n.toNat } := by
  have h : ¬ n < 0 := by omega
  simp only [newThrottler, makeChan, h, if_false]
  rw [fillChan_eq _ _ (by simp)]
  simp

theorem newThrottler_neg (n : Int) (hn : n < 0) : newThrottler n = none := by
  simp [newThrottler, makeChan, hn]

theorem countP_set_of_getElem? {α : Type} (p : α → Bool) (l : List α) (i : Nat) (a b : α)
    (h : l[i]? = some a) :
    (l.set i b).countP p + (if p a then 1 else 0) = l.countP p + (if p b then 1 else 0) := by
  induction l generalizing i with
  | nil => simp at h
  | cons x xs ih =>
    cases i with
    | zero =>
      simp only [List.getElem?_cons_zero, Option.some.injEq] at h
      subst h
      simp only [List.set_cons_zero, List.countP_cons]
      omega
    | succ j =>
      simp only [List.getElem?_cons_succ] at h
      have := ih j h
      simp only [List.set_cons_succ, List.countP_cons]
      omega

theorem step_balanced {σ : Type} (I : LRUCache σ) (s s1 : Sys σ) (a : Action) (n : Nat)
    (hs : s.Balanced n) (hstep : s.step I a = some s1) : s1.Balanced n := by
  obtain ⟨hcap, hsum⟩ := hs
  unfold Sys.outstanding at hsum
  cases a with
  | arrive args reply =>
    simp only [Sys.step, Option.some.injEq] at hstep
    subst hstep
    refine ⟨hcap, ?_⟩
    simp only [Sys.outstanding, List.countP_append, List.countP_cons, List.countP_nil,
      Call.holdsToken]
    simpa using hsum
  | acquire i =>
    simp only [Sys.step] at hstep
    split at hstep
    · rename_i c hc
      split at hstep
      · rename_i ch hpc hrecv
        simp only [Option.some.injEq] at hstep
        subst hstep
        have hcnt := countP_set_of_getElem? Call.holdsToken s.calls i c
          { c with pc := .holding } hc
        have h1 : Call.holdsToken c = false := by simp [Call.holdsToken, hpc]
        have h2 : Call.holdsToken { c with pc := .holding } = true := rfl
        simp only [h1, h2] at hcnt
        simp only [Chan.recv] at hrecv
        split at hrecv
        · simp only [Option.some.injEq] at hrecv
          subst hrecv
          refine ⟨hcap, ?_⟩
          simp only [Sys.outstanding]
          simp at hcnt
          omega
        · exact absurd hrecv (by simp)
      · exact absurd hstep (by simp)
    · exact absurd hstep (by simp)
  | timeout i =>
    simp only [Sys.step] at hstep
    split at hstep
    · rename_i c hc
      split at hstep
      · rename_i hpc
        simp only [Option.some.injEq] at hstep
        subst hstep
        have hcnt := countP_set_of_getElem? Call.holdsToken s.calls i c
          { c with pc := .returned (some errTimedOut) } hc
        have h1 : Call.holdsToken c = false := by simp [Call.holdsToken, hpc]
        have h2 : Call.holdsToken { c with pc := .returned (some errTimedOut) } = false := rfl
        simp only [h1, h2] at hcnt
        refine ⟨hcap, ?_⟩
        simp only [Sys.outstanding]
        simp at hcnt
        omega
      · exact absurd hstep (by simp)
    · exact absurd hstep (by simp)
  | body i =>
    simp only [Sys.step] at hstep
    split at hstep
    · rename_i c hc
      split at hstep
      · rename_i hpc
        simp only [Option.some.injEq] at hstep
        subst hstep
        have hcnt := countP_set_of_getElem? Call.holdsToken s.calls i c
          { c with reply := (getBody I s.srv.cache c.args c.reply).2.1,
                   pc := .releasing (getBody I s.srv.cache c.args c.reply).2.2 } hc
        have h1 : Call.holdsToken c = true := by simp [Call.holdsToken, hpc]
        have h2 : Call.holdsToken
            { c with reply := (getBody I s.srv.cache c.args c.reply).2.1,
                     pc := .releasing (getBody I s.srv.cache c.args c.reply).2.2 } = true := rfl
        simp only [h1, h2] at hcnt
        refine ⟨hcap, ?_⟩
        simp only [Sys.outstanding]
        simp at hcnt
        omega
      · exact absurd hstep (by simp)
    · exact absurd hstep (by simp)
  | release i =>
    simp only [Sys.step] at hstep
    split at hstep
    · rename_i c hc
      split at hstep
      · rename_i err ch hpc hsend
        simp only [Option.some.injEq] at hstep
        subst hstep
        have hcnt := countP_set_of_getElem? Call.holdsToken s.calls i c
          { c with pc := .returned err } hc
        have h1 : Call.holdsToken c = true := by simp [Call.holdsToken, hpc]
        have h2 : Call.holdsToken { c with pc := .returned err } = false := rfl
        simp only [h1, h2] at hcnt
        simp only [Chan.send] at hsend
        split at hsend
        · simp only [Option.some.injEq] at hsend
          subst hsend
          refine ⟨hcap, ?_⟩
          simp only [Sys.outstanding]
          simp at hcnt
          omega
        · exact absurd hsend (by simp)
      · exact absurd hstep (by simp)
    · exact absurd hstep (by simp)

theorem run_balanced {σ : Type} (I : LRUCache σ) (acts : List Action) (s s1 : Sys σ) (n : Nat)
    (hs : s.Balanced n) (hrun : Sys.run I s acts = some s1) : s1.Balanced n := by
  induction acts generalizing s with
  | nil =>
    simp only [Sys.run, Option.some.injEq] at hrun
    exact hrun ▸ hs
  | cons a rest ih =>
    simp only [Sys.run] at hrun
    split at hrun
    · exact absurd hrun (by simp)
    · rename_i s2 hstep
      exact ih s2 (step_balanced I s s2 a n hs hstep) hrun

theorem countP_pos_of_getElem? {α : Type} (p : α → Bool) (l : List α) (i : Nat) (a : α)
    (h : l[i]? = some a) (hp : p a = true) : 0 < l.countP p := by
  rw [List.countP_pos_iff]
  exact ⟨a, List.getElem?_mem h, hp⟩

/-- C2: for `n ≥ 0`, `newThrottler(n)` returns a channel of capacity `n`
holding `n` tokens, and in every state reached from it by any schedule of
arrivals, receives, timeouts, bodies and deferred sends of `CacheSrv.Get`
calls, the tokens in the pool plus the tokens held by calls in flight make
`n`; so at most `n` tokens are outstanding, the capacity stays `n`, and the
deferred send of a call that is about to release is enabled (the channel is
not full). -/
theorem pool_invariant {σ : Type} (I : LRUCache σ) (c : σ) (n : Int) (hn : 0 ≤ n) :
    ∃ pool, newThrottler n = some pool ∧ pool.cap = n.toNat ∧ pool.len = n.toNat ∧
      ∀ (acts : List Action) (s : Sys σ), Sys.run I (Sys.init c pool) acts = some s →
        s.srv.allowedReqs.len + s.outstanding = n.toNat ∧
        s.outstanding ≤ n.toNat ∧
        s.srv.allowedReqs.cap = n.toNat ∧
        ∀ (i : Nat) (call : Call) (err : GoError),
          s.calls[i]? = some call → call.pc = .releasing err →
            ∃ s1, s.step I (.release i) = some s1 := by
  refine ⟨_, newThrottler_eq n hn, rfl, rfl, ?_⟩
  intro acts s hrun
  have hinit : (Sys.init c { cap := n.toNat, len := n.toNat } : Sys σ).Balanced n.toNat := by
    simp [Sys.Balanced, Sys.init, Sys.outstanding]
  obtain ⟨hcap, hsum⟩ := run_balanced I acts _ s n.toNat hinit hrun
  refine ⟨hsum, by omega, hcap, ?_⟩
  intro i call err hcall hpc
  have hpos : 0 < s.outstanding :=
    countP_pos_of_getElem? Call.holdsToken s.calls i call hcall (by simp [Call.holdsToken, hpc])
  have hlt : s.srv.allowedReqs.len < s.srv.allowedReqs.cap := by omega
  simp [Sys.step, hcall, hpc, send_of_lt _ hlt]

theorem pool_invariant_witness :
    ∃ s, Sys.run simpleLRU (Sys.init (LRU.New 2 1000000000) { cap := 1, len := 1 })
        testSchedule = some s ∧
      s.srv.allowedReqs.len + s.outstanding = 1 ∧
      s.outstanding ≤ 1 ∧
      s.srv.allowedReqs.cap = 1 ∧
      ∃ s1, s.step simpleLRU (.release 0) = some s1 := by
  obtain ⟨pool, hp, _, _, h⟩ :=
    pool_invariant simpleLRU (LRU.New 2 1000000000) 1 (by decide)
  have hpool : pool = { cap := 1, len := 1 } := by
    have h1 : newThrottler 1 = some { cap := 1, len := 1 } := by decide
    rw [h1] at hp
    exact (Option.some.inj hp).symm
  subst hpool
  refine ⟨_, rfl, ?_⟩
  obtain ⟨a, b, c, d⟩ := h testSchedule _ rfl
  exact ⟨a, b, c, d 0 _ _ rfl rfl⟩

/-! ## Pre-population -/

theorem stringsSplit_ne_nil (sep : Byte) (s : GoString) : stringsSplit sep s ≠ [] := by
  cases s with
  | nil => simp [stringsSplit]
  | cons b rest =>
    simp only [stringsSplit]
    split
    · simp
    · split <;> simp

theorem length_stringsSplit (sep : Byte) (s : GoString) :
    (stringsSplit sep s).length = s.count sep + 1 := by
  induction s with
  | nil => simp [stringsSplit]
  | cons b rest ih =>
    simp only [stringsSplit]
    by_cases hb : b = sep
    · subst hb
      simp [ih]
    · simp only [hb, if_false]
      have hne := stringsSplit_ne_nil sep rest
      rw [List.count_cons_of_ne (Ne.symm hb)]
      split
      · rename_i heq
        exact absurd heq hne
      · rename_i p ps heq
        rw [heq] at ih
        simpa using ih

theorem stringsSplit_of_count_zero (sep : Byte) (s : GoString) (h : s.count sep = 0) :
    stringsSplit sep s = [s] := by
  induction s with
  | nil => rfl
  | cons b rest ih =>
    by_cases hb : b = sep
    · subst hb
      simp at h
    · rw [List.count_cons_of_ne (Ne.symm hb)] at h
      simp [stringsSplit, hb, ih h]

theorem stringsSplit_of_count_one (s : GoString) (h : s.count colon = 1) :
    stringsSplit colon s = [textBefore s, textAfter s] := by
  induction s with
  | nil => simp at h
  | cons b rest ih =>
    by_cases hb : b = colon
    · subst hb
      have h0 : rest.count colon = 0 := by simpa using h
      simp [stringsSplit, stringsSplit_of_count_zero _ _ h0, textBefore, textAfter]
    · rw [List.count_cons_of_ne (Ne.symm hb)] at h
      have hb1 : (b != colon) = true := by simpa using hb
      simp only [stringsSplit, hb, if_false, ih h, textBefore, textAfter,
        List.takeWhile_cons, List.dropWhile_cons, hb1, if_true]

theorem line_decomposition (s : GoString) (h : s.count colon = 1) :
    s = textBefore s ++ colon :: textAfter s ∧ colon ∉ textBefore s ∧ colon ∉ textAfter s := by
  induction s with
  | nil => simp at h
  | cons b rest ih =>
    by_cases hb : b = colon
    · subst hb
      have h0 : rest.count colon = 0 := by simpa using h
      have hnot : colon ∉ rest := List.count_eq_zero.mp h0
      simp [textBefore, textAfter, hnot]
    · rw [List.count_cons_of_ne (Ne.symm hb)] at h
      have hb1 : (b != colon) = true := by simpa using hb
      obtain ⟨h1, h2, h3⟩ := ih h
      simp only [textBefore, textAfter] at h1 h2 h3
      simp only [textBefore, textAfter, List.takeWhile_cons, List.dropWhile_cons, hb1, if_true]
      refine ⟨?_, ?_, h3⟩
      · simp only [List.cons_append]
        exact congrArg _ h1
      · simp only [List.mem_cons, not_or]
        exact ⟨fun e => hb e.symm, h2⟩

theorem split_length_ne_two_iff (l : GoString) :
    (stringsSplit colon l).length ≠ 2 ↔ l.count colon ≠ 1 := by
  rw [length_stringsSplit]
  omega

theorem scanLoop_cons_bad {σ : Type} (I : LRUCache σ) (c : σ) (l : GoString)
    (rest : List GoString) (h : l.count colon ≠ 1) :
    scanLoop I c (l :: rest) = { cache := c, trace := [], fatal := some .invalidFormat } := by
  have h2 := (split_length_ne_two_iff l).mpr h
  simp [scanLoop, h2]

theorem scanLoop_cons_good {σ : Type} (I : LRUCache σ) (c : σ) (l : GoString)
    (rest : List GoString) (h : l.count colon = 1) :
    scanLoop I c (l :: rest) =
      { scanLoop I (I.Add c (bytesOf (textBefore l)) (bytesOf (textAfter l))) rest with
        trace := addOfLine l ::
          (scanLoop I (I.Add c (bytesOf (textBefore l)) (bytesOf (textAfter l))) rest).trace } := by
  have h2 : (stringsSplit colon l).length = 2 := by rw [length_stringsSplit, h]
  simp [scanLoop, h2, stringsSplit_of_count_one l h, addOfLine]

theorem scanLoop_all_good {σ : Type} (I : LRUCache σ) (c : σ) (lines : List GoString)
    (h : ∀ l ∈ lines, l.count colon = 1) :
    scanLoop I c lines =
      { cache := addLines I c lines, trace := lines.map addOfLine, fatal := none } := by
  induction lines generalizing c with
  | nil => rfl
  | cons l rest ih =>
    rw [scanLoop_cons_good I c l rest (h l (List.mem_cons_self _ _))]
    rw [ih _ (fun x hx => h x (List.mem_cons_of_mem _ hx))]
    simp [addLines]

theorem scanLoop_trace {σ : Type} (I : LRUCache σ) (c : σ) (lines : List GoString) :
    (scanLoop I c lines).trace = (lines.takeWhile wellFormed).map addOfLine := by
  induction lines generalizing c with
  | nil => rfl
  | cons l rest ih =>
    by_cases h : l.count colon = 1
    · rw [scanLoop_cons_good I c l rest h]
      have hw : wellFormed l = true := by simp [wellFormed, h]
      simp [List.takeWhile_cons, hw, ih]
    · rw [scanLoop_cons_bad I c l rest h]
      have hw : wellFormed l = false := by simp [wellFormed, h]
      simp [List.takeWhile_cons, hw]

theorem scanLoop_fatal {σ : Type} (I : LRUCache σ) (c : σ) (lines : List GoString) :
    ((scanLoop I c lines).fatal = some .invalidFormat ↔ ∃ l ∈ lines, l.count colon ≠ 1) ∧
    ((scanLoop I c lines).fatal = none ↔ ∀ l ∈ lines, l.count colon = 1) := by
  induction lines generalizing c with
  | nil => simp [scanLoop]
  | cons l rest ih =>
    by_cases h : l.count colon = 1
    · rw [scanLoop_cons_good I c l rest h]
      simp [ih, h]
    · rw [scanLoop_cons_bad I c l rest h]
      simp [h]

theorem rawLines_cons_ne (b : Byte) (rest : List Byte) (hb : b ≠ newline) :
    rawLines (b :: rest) =
      match rawLines rest with
      | [] => [[b]]
      | l :: ls => (b :: l) :: ls := by
  simp [rawLines, hb]

theorem rawLines_of_no_newline (l : List Byte) (hne : l ≠ []) (h : newline ∉ l) :
    rawLines l = [l] := by
  induction l with
  | nil => exact absurd rfl hne
  | cons b rest ih =>
    have hb : b ≠ newline := fun e => h (e ▸ List.mem_cons_self _ _)
    have hrest : newline ∉ rest := fun hm => h (List.mem_cons_of_mem _ hm)
    rw [rawLines_cons_ne b rest hb]
    cases rest with
    | nil => rfl
    | cons b2 rest2 => rw [ih (by simp) hrest]

theorem rawLines_append_newline (l rest : List Byte) (h : newline ∉ l) :
    rawLines (l ++ newline :: rest) = l :: rawLines rest := by
  induction l with
  | nil => simp [rawLines]
  | cons b l2 ih =>
    have hb : b ≠ newline := fun e => h (e ▸ List.mem_cons_self _ _)
    have hrest : newline ∉ l2 := fun hm => h (List.mem_cons_of_mem _ hm)
    rw [List.cons_append, rawLines_cons_ne _ _ hb, ih hrest]

/-- A file written as lines that each end with a newline is scanned back into
those lines. -/
theorem rawLines_joinLines (ls : List (List Byte)) (h : ∀ l ∈ ls, newline ∉ l) :
    rawLines (joinLines ls) = ls := by
  induction ls with
  | nil => rfl
  | cons l rest ih =>
    have h1 : newline ∉ l := h l (List.mem_cons_self _ _)
    have h2 : ∀ x ∈ rest, newline ∉ x := fun x hx => h x (List.mem_cons_of_mem _ hx)
    show rawLines (l ++ newline :: joinLines rest) = l :: rest
    rw [rawLines_append_newline l _ h1, ih h2]

theorem count_dropCR (l : List Byte) : (dropCR l).count colon = l.count colon := by
  unfold dropCR
  split
  · rename_i hlast
    have hsplit : l.dropLast ++ [carriageReturn] = l :=
      List.dropLast_append_getLast? carriageReturn hlast
    conv_rhs => rw [← hsplit]
    rw [List.count_append]
    have : List.count colon [carriageReturn] = 0 := by decide
    omega
  · rfl

theorem scanFile_of_all_fit (f : FileData) (h : ∀ l ∈ rawLines f.content, fitsBuffer l = true) :
    scanFile f = { lines := (rawLines f.content).map dropCR, err := f.readErr } := by
  have h1 : (rawLines f.content).takeWhile fitsBuffer = rawLines f.content :=
    List.takeWhile_eq_self_iff.mpr h
  have h2 : (rawLines f.content).all fitsBuffer = true := List.all_eq_true.mpr h
  simp [scanFile, h1, h2]

theorem populate_trace {σ : Type} (I : LRUCache σ) (c : σ) (f : FileData) :
    (populateTestData I c (.ok f)).trace = (scanLoop I c (scanFile f).lines).trace := by
  simp only [populateTestData]
  split <;> rfl

theorem populate_cache {σ : Type} (I : LRUCache σ) (c : σ) (f : FileData) :
    (populateTestData I c (.ok f)).cache = (scanLoop I c (scanFile f).lines).cache := by
  simp only [populateTestData]
  split <;> rfl

theorem populate_fatal_invalid {σ : Type} (I : LRUCache σ) (c : σ) (f : FileData) :
    (populateTestData I c (.ok f)).fatal = some .invalidFormat ↔
      (scanLoop I c (scanFile f).lines).fatal = some .invalidFormat := by
  simp only [populateTestData]
  split
  · rename_i h1 h2
    simp [h1]
  · rfl

theorem populate_fatal_scan {σ : Type} (I : LRUCache σ) (c : σ) (f : FileData)
    (h : (scanLoop I c (scanFile f).lines).fatal = none) :
    (populateTestData I c (.ok f)).fatal = (scanFile f).err.map Fatal.scan := by
  simp only [populateTestData]
  split
  · rename_i err h1 h2
    simp [h2]
  · rename_i hno
    cases herr : (scanFile f).err with
    | none => simp [h]
    | some err => exact absurd herr (hno err h)

theorem mem_takeWhile_count {ls : List (List Byte)} {l : List Byte}
    (h : l ∈ ls.takeWhile fitsBuffer) : l ∈ ls :=
  (List.takeWhile_sublist _).subset h

theorem longLine_no_newline : newline ∉ longLine := by
  unfold longLine
  rw [List.mem_append, List.mem_replicate]
  rintro (h | h)
  · exact absurd h (by decide)
  · exact absurd h.2 (by decide)

theorem maxScanTokenSize_ne_zero : maxScanTokenSize ≠ 0 := by decide

theorem longLine_length : longLine.length = 2 + maxScanTokenSize := by
  have h2 : (goLit "k:").length = 2 := by decide
  unfold longLine
  rw [List.length_append, List.length_replicate, h2]

theorem longLine_not_fits : fitsBuffer longLine = false := by
  unfold fitsBuffer
  rw [longLine_length]
  exact decide_eq_false (by omega)

theorem longLine_count : longLine.count colon = 1 := by
  have h1 : (goLit "k:").count colon = 1 := by decide
  have h2 : ((118 : Byte) == colon) = false := by decide
  unfold longLine
  rw [List.count_append, List.count_replicate, h1, h2]
  rfl

theorem longLine_ne_nil : longLine ≠ [] := by
  intro h
  have hl := longLine_length
  rw [h, List.length_nil] at hl
  omega

theorem rawLines_tooLongFile : rawLines tooLongFile.content = [goLit "k1:v1", longLine] := by
  show rawLines (goLit "k1:v1" ++ newline :: longLine) = _
  rw [rawLines_append_newline _ _ (by decide),
    rawLines_of_no_newline _ longLine_ne_nil longLine_no_newline]

theorem scanFile_tooLongFile :
    scanFile tooLongFile = { lines := [goLit "k1:v1"], err := some errTooLong } := by
  have hfit : fitsBuffer (goLit "k1:v1") = true := by decide
  have hcr : dropCR (goLit "k1:v1") = goLit "k1:v1" := by decide
  simp [scanFile, rawLines_tooLongFile, hfit, longLine_not_fits, hcr]

theorem longBadLine_facts :
    longBadLine ≠ [] ∧ newline ∉ longBadLine ∧ fitsBuffer longBadLine = false ∧
      longBadLine.count colon = 0 := by
  have h2 : ((120 : Byte) == colon) = false := by decide
  have hlen : longBadLine.length = maxScanTokenSize := List.length_replicate _ _
  refine ⟨?_, ?_, ?_, ?_⟩
  · intro h
    rw [h, List.length_nil] at hlen
    exact maxScanTokenSize_ne_zero hlen.symm
  · unfold longBadLine
    rw [List.mem_replicate]
    rintro ⟨_, h⟩
    exact absurd h (by decide)
  · unfold fitsBuffer
    rw [hlen]
    exact decide_eq_false (by omega)
  · unfold longBadLine
    rw [List.count_replicate, h2]
    rfl

theorem scanFile_longBadFile :
    scanFile longBadFile = { lines := [], err := some errTooLong } := by
  obtain ⟨hne, hnl, hfit, _⟩ := longBadLine_facts
  have hraw : rawLines longBadFile.content = [longBadLine] :=
    rawLines_of_no_newline _ hne hnl
  simp [scanFile, hraw, hfit]

/-- C9 (as stated, refuted): a file of two lines, each with exactly one `:`,
whose second line is longer than the 64 KiB buffer of the scanner:
`populateTestData` makes one `Add`, not two, and ends through the
`log.Fatal` of line 89 with "bufio.Scanner: token too long". -/
theorem populate_stops_at_long_line :
    rawLines tooLongFile.content = [goLit "k1:v1", longLine] ∧
    (∀ l ∈ rawLines tooLongFile.content, l.count colon = 1) ∧
    (populateTestData simpleLRU (LRU.New 2 1000000000) (.ok tooLongFile)).trace =
      [Event.cacheAdd (goLit "k1") (goLit "v1")] ∧
    (populateTestData simpleLRU (LRU.New 2 1000000000) (.ok tooLongFile)).fatal =
      some (.scan (goLit "bufio.Scanner: token too long")) := by
  refine ⟨rawLines_tooLongFile, ?_, ?_, ?_⟩
  · intro l hl
    rw [rawLines_tooLongFile] at hl
    simp only [List.mem_cons, List.mem_singleton, List.not_mem_nil, or_false] at hl
    rcases hl with h | h
    · rw [h]
      decide
    · rw [h]
      exact longLine_count
  · rw [populate_trace, scanFile_tooLongFile]
    decide
  · rw [populate_fatal_scan _ _ _ (by rw [scanFile_tooLongFile]; decide),
      scanFile_tooLongFile]
    rfl

/-- C9 (amended): for a file in which every line holds exactly one `:` and is
shorter than 64 KiB (the buffer of the scanner), `populateTestData` calls
`cache.Add` once per line, in line order, with the text before the `:` as
key and the text after it as value (the line, without its end-of-line
marker, being key, `:`, value); it makes no other call, so it neither
receives from nor sends to the admission pool; it does not stop with
"invalid test data format"; it returns when the reads end without error,
and ends through the `log.Fatal` of line 89 when they end with one. -/
theorem populate_adds_each_line {σ : Type} (I : LRUCache σ) (c : σ) (f : FileData)
    (h : ∀ l ∈ rawLines f.content, l.count colon = 1 ∧ l.length < maxScanTokenSize) :
    (populateTestData I c (.ok f)).trace =
      (rawLines f.content).map (fun l =>
        Event.cacheAdd (bytesOf (textBefore (dropCR l))) (bytesOf (textAfter (dropCR l)))) ∧
    (∀ l ∈ rawLines f.content, dropCR l = textBefore (dropCR l) ++ colon :: textAfter (dropCR l) ∧
      colon ∉ textBefore (dropCR l) ∧ colon ∉ textAfter (dropCR l)) ∧
    (populateTestData I c (.ok f)).cache = addLines I c ((rawLines f.content).map dropCR) ∧
    Event.recv ∉ (populateTestData I c (.ok f)).trace ∧
    Event.send ∉ (populateTestData I c (.ok f)).trace ∧
    (populateTestData I c (.ok f)).fatal ≠ some .invalidFormat ∧
    (f.readErr = none → (populateTestData I c (.ok f)).fatal = none) ∧
    (∀ err : GoString, f.readErr = some err →
      (populateTestData I c (.ok f)).fatal = some (.scan err)) := by
  have hfit : ∀ l ∈ rawLines f.content, fitsBuffer l = true := by
    intro l hl
    simpa [fitsBuffer] using (h l hl).2
  have hscan := scanFile_of_all_fit f hfit
  have hgood : ∀ l ∈ (rawLines f.content).map dropCR, l.count colon = 1 := by
    intro l hl
    obtain ⟨x, hx, rfl⟩ := List.mem_map.mp hl
    rw [count_dropCR]
    exact (h x hx).1
  have hloop := scanLoop_all_good I c _ hgood
  have htr : (populateTestData I c (.ok f)).trace =
      (rawLines f.content).map (fun l => addOfLine (dropCR l)) := by
    rw [populate_trace, hscan, hloop]
    simp [List.map_map, Function.comp_def]
  refine ⟨htr, ?_, ?_, ?_, ?_, ?_, ?_, ?_⟩
  · intro l hl
    exact line_decomposition (dropCR l) (by rw [count_dropCR]; exact (h l hl).1)
  · rw [populate_cache, hscan, hloop]
  · rw [htr]
    simp [addOfLine]
  · rw [htr]
    simp [addOfLine]
  · intro hbad
    rw [populate_fatal_invalid, hscan, hloop] at hbad
    exact absurd hbad (by simp)
  · intro herr
    rw [populate_fatal_scan _ _ _ (by rw [hscan, hloop]), hscan, herr]
    rfl
  · intro err herr
    rw [populate_fatal_scan _ _ _ (by rw [hscan, hloop]), hscan, herr]
    rfl

theorem populate_adds_each_line_witness :
    (populateTestData simpleLRU (LRU.New 2 1000000000) (.ok testFile)).trace =
      (rawLines testFile.content).map (fun l =>
        Event.cacheAdd (bytesOf (textBefore (dropCR l))) (bytesOf (textAfter (dropCR l)))) ∧
    (∀ l ∈ rawLines testFile.content,
      dropCR l = textBefore (dropCR l) ++ colon :: textAfter (dropCR l) ∧
      colon ∉ textBefore (dropCR l) ∧ colon ∉ textAfter (dropCR l)) ∧
    (populateTestData simpleLRU (LRU.New 2 1000000000) (.ok testFile)).cache =
      addLines simpleLRU (LRU.New 2 1000000000) ((rawLines testFile.content).map dropCR) ∧
    Event.recv ∉ (populateTestData simpleLRU (LRU.New 2 1000000000) (.ok testFile)).trace ∧
    Event.send ∉ (populateTestData simpleLRU (LRU.New 2 1000000000) (.ok testFile)).trace ∧
    (populateTestData simpleLRU (LRU.New 2 1000000000) (.ok testFile)).fatal ≠
      some .invalidFormat ∧
    (testFile.readErr = none →
      (populateTestData simpleLRU (LRU.New 2 1000000000) (.ok testFile)).fatal = none) ∧
    (∀ err : GoString, testFile.readErr = some err →
      (populateTestData simpleLRU (LRU.New 2 1000000000) (.ok testFile)).fatal =
        some (.scan err)) :=
  populate_adds_each_line simpleLRU (LRU.New 2 1000000000) testFile (by decide)

/-- C10 (as stated, refuted): a file whose only line holds no `:` (so it does
not split into two parts) and is 64 KiB long: `populateTestData` does not
stop with "invalid test data format" but with "bufio.Scanner: token too
long", from the `log.Fatal` of line 89. -/
theorem populate_long_malformed_line :
    rawLines longBadFile.content = [longBadLine] ∧
    longBadLine.count colon ≠ 1 ∧
    (stringsSplit colon longBadLine).length ≠ 2 ∧
    (populateTestData simpleLRU (LRU.New 2 1000000000) (.ok longBadFile)).fatal =
      some (.scan (goLit "bufio.Scanner: token too long")) ∧
    (populateTestData simpleLRU (LRU.New 2 1000000000) (.ok longBadFile)).fatal ≠
      some .invalidFormat ∧
    (Fatal.scan (goLit "bufio.Scanner: token too long")).message ≠
      goLit "invalid test data format" := by
  obtain ⟨hne, hnl, _, hcount⟩ := longBadLine_facts
  have hc : longBadLine.count colon ≠ 1 := by omega
  have hfatal : (populateTestData simpleLRU (LRU.New 2 1000000000) (.ok longBadFile)).fatal =
      some (.scan (goLit "bufio.Scanner: token too long")) := by
    rw [populate_fatal_scan _ _ _ (by rw [scanFile_longBadFile]; rfl), scanFile_longBadFile]
    rfl
  refine ⟨rawLines_of_no_newline _ hne hnl, hc, (split_length_ne_two_iff _).mpr hc, hfatal,
    ?_, by decide⟩
  rw [hfatal]
  decide

/-- C10 (amended): `populateTestData` stops with "invalid test data format"
exactly when a line that the scanner delivers (one that, like all lines
before it, is shorter than 64 KiB) does not split on `:` into two parts,
which for a line is the same as not holding exactly one `:` (the empty line
and a line with two `:` among them). When instead the lines delivered are
all well formed and some line is too long, it stops with
"bufio.Scanner: token too long". Either way the `Add` calls made are those
of the lines before the first line that is too long or malformed, none for
that line or a later one. -/
theorem populate_invalid_format {σ : Type} (I : LRUCache σ) (c : σ) (f : FileData) :
    ((populateTestData I c (.ok f)).fatal = some .invalidFormat ↔
      ∃ l ∈ (rawLines f.content).takeWhile fitsBuffer,
        (stringsSplit colon (dropCR l)).length ≠ 2) ∧
    (∀ l : List Byte, (stringsSplit colon (dropCR l)).length ≠ 2 ↔ l.count colon ≠ 1) ∧
    ((∃ l ∈ rawLines f.content, fitsBuffer l = false) →
      (∀ l ∈ (rawLines f.content).takeWhile fitsBuffer, l.count colon = 1) →
      (populateTestData I c (.ok f)).fatal = some (.scan errTooLong)) ∧
    (populateTestData I c (.ok f)).trace =
      (((rawLines f.content).takeWhile fitsBuffer).takeWhile
        (fun l => l.count colon == 1)).map (fun l =>
          Event.cacheAdd (bytesOf (textBefore (dropCR l))) (bytesOf (textAfter (dropCR l)))) ∧
    Fatal.invalidFormat.message = goLit "invalid test data format" ∧
    errTooLong = goLit "bufio.Scanner: token too long" ∧
    (stringsSplit colon (dropCR [])).length ≠ 2 ∧
    (stringsSplit colon (dropCR (goLit "k:v:w"))).length ≠ 2 := by
  have hiff : ∀ l : List Byte,
      (stringsSplit colon (dropCR l)).length ≠ 2 ↔ l.count colon ≠ 1 := by
    intro l
    rw [split_length_ne_two_iff, count_dropCR]
  refine ⟨?_, hiff, ?_, ?_, rfl, rfl, by decide, by decide⟩
  · rw [populate_fatal_invalid, (scanLoop_fatal I c _).1]
    simp only [scanFile, List.mem_map]
    constructor
    · rintro ⟨l, ⟨x, hx, rfl⟩, hl⟩
      exact ⟨x, hx, (split_length_ne_two_iff _).mpr hl⟩
    · rintro ⟨x, hx, hl⟩
      exact ⟨dropCR x, ⟨x, hx, rfl⟩, (split_length_ne_two_iff _).mp hl⟩
  · rintro ⟨x, hx, hbad⟩ hgood
    have hall : (rawLines f.content).all fitsBuffer = false := by
      rw [List.all_eq_false]
      exact ⟨x, hx, by simp [hbad]⟩
    have hloop : (scanLoop I c (scanFile f).lines).fatal = none := by
      rw [(scanLoop_fatal I c _).2]
      intro l hl
      simp only [scanFile, List.mem_map] at hl
      obtain ⟨y, hy, rfl⟩ := hl
      rw [count_dropCR]
      exact hgood y hy
    rw [populate_fatal_scan _ _ _ hloop]
    simp [scanFile, hall]
  · rw [populate_trace, scanLoop_trace]
    simp only [scanFile]
    rw [List.takeWhile_map, List.map_map]
    have hfun : (wellFormed ∘ dropCR) = fun l : List Byte => l.count colon == 1 := by
      funext l
      simp [wellFormed, count_dropCR]
    rw [hfun]
    rfl

/-! ## Startup -/

/-- C8 (as stated, refuted): with `max_concurrent_reqs=0`, which is not
positive, every other flag at its default and the port free, `main`
registers the service (with an empty pool of capacity 0) and accepts
requests; every call of `Get` can then only time out. -/
theorem main_serves_with_zero_pool :
    (main simpleLRU newSimple zeroPoolFlags plainWorld).outcome =
      .serving { cache := LRU.New 1000 3600000000000, allowedReqs := { cap := 0, len := 0 } }
        8080 ∧
    CacheSrv.Get simpleLRU
      { cache := LRU.New 1000 3600000000000, allowedReqs := { cap := 0, len := 0 } }
      .token ⟨testKey1⟩ ⟨[]⟩ = none :=
  ⟨rfl, rfl⟩

/-- C8 (amended): `main` checks none of `maxCachedEntries`, `ttl` and
`maxConcurrent` itself. Once the database is open, `cache.NewLRUCache` has
returned a cache for the `maxCachedEntries` and `ttl` it was passed, and
there is no test data: a negative `maxConcurrent` stops `main` in
`newThrottler` (the panic of `make`) before the service is registered, and
any `maxConcurrent ≥ 0`, zero included, registers the service with a pool of
that many tokens; `main` then accepts requests when `ListenAndServe` can
listen on the port, and ends through `log.Fatal` when it cannot (a port
outside 0..65535 among the reasons). With zero tokens no call of `Get` is
ever admitted. -/
theorem main_outcome {σ : Type} (I : LRUCache σ) (newLRUCache : Int → Int → Option σ)
    (fl : Flags) (w : World) (c : σ)
    (hdb : w.dbOpen = none)
    (hc : newLRUCache fl.maxCachedEntries fl.ttl = some c)
    (hpath : fl.testDataPath = []) :
    (fl.maxRPCs < 0 → (main I newLRUCache fl w).outcome = .panicked) ∧
    (0 ≤ fl.maxRPCs → listenError w fl.port = none →
      (main I newLRUCache fl w).outcome =
        .serving { cache := c,
                   allowedReqs := { cap := fl.maxRPCs.toNat, len := fl.maxRPCs.toNat } }
          fl.port) ∧
    (0 ≤ fl.maxRPCs → ∀ err : GoString, listenError w fl.port = some err →
      (main I newLRUCache fl w).outcome =
        .listenFailed { cache := c,
                        allowedReqs := { cap := fl.maxRPCs.toNat, len := fl.maxRPCs.toNat } }
          err) ∧
    (fl.port < 0 ∨ 65535 < fl.port → listenError w fl.port = some (w.invalidPort fl.port)) ∧
    (fl.maxRPCs = 0 → ∀ (args : GetArgs) (reply : GetReply),
      CacheSrv.Get I { cache := c, allowedReqs := { cap := 0, len := 0 } } .token args reply
        = none) ∧
    (fl.maxRPCs < 0 → ∀ (srv : CacheSrv σ),
      (∀ port : Int, (main I newLRUCache fl w).outcome ≠ .serving srv port) ∧
      (∀ err : GoString, (main I newLRUCache fl w).outcome ≠ .listenFailed srv err)) := by
  have hneg : fl.maxRPCs < 0 → (main I newLRUCache fl w).outcome = .panicked := by
    intro h
    simp [main, hdb, hc, hpath, newThrottler_neg _ h]
  refine ⟨hneg, ?_, ?_, ?_, ?_, ?_⟩
  · intro h hl
    simp [main, hdb, hc, hpath, newThrottler_eq _ h, hl]
  · intro h err hl
    simp [main, hdb, hc, hpath, newThrottler_eq _ h, hl]
  · intro h
    simp [listenError, h]
  · intro _ args reply
    rfl
  · intro h srv
    rw [hneg h]
    exact ⟨fun port heq => absurd heq (by simp), fun err heq => absurd heq (by simp)⟩

theorem main_outcome_witness :
    (zeroPoolFlags.maxRPCs < 0 →
      (main simpleLRU newSimple zeroPoolFlags plainWorld).outcome = .panicked) ∧
    (0 ≤ zeroPoolFlags.maxRPCs → listenError plainWorld zeroPoolFlags.port = none →
      (main simpleLRU newSimple zeroPoolFlags plainWorld).outcome =
        .serving { cache := LRU.New 1000 3600000000000,
                   allowedReqs := { cap := zeroPoolFlags.maxRPCs.toNat,
                                    len := zeroPoolFlags.maxRPCs.toNat } }
          zeroPoolFlags.port) ∧
    (0 ≤ zeroPoolFlags.maxRPCs → ∀ err : GoString,
      listenError plainWorld zeroPoolFlags.port = some err →
      (main simpleLRU newSimple zeroPoolFlags plainWorld).outcome =
        .listenFailed { cache := LRU.New 1000 3600000000000,
                        allowedReqs := { cap := zeroPoolFlags.maxRPCs.toNat,
                                         len := zeroPoolFlags.maxRPCs.toNat } }
          err) ∧
    (zeroPoolFlags.port < 0 ∨ 65535 < zeroPoolFlags.port →
      listenError plainWorld zeroPoolFlags.port =
        some (plainWorld.invalidPort zeroPoolFlags.port)) ∧
    (zeroPoolFlags.maxRPCs = 0 → ∀ (args : GetArgs) (reply : GetReply),
      CacheSrv.Get simpleLRU
        { cache := LRU.New 1000 3600000000000, allowedReqs := { cap := 0, len := 0 } }
        .token args reply = none) ∧
    (zeroPoolFlags.maxRPCs < 0 → ∀ (srv : CacheSrv LRU),
      (∀ port : Int,
        (main simpleLRU newSimple zeroPoolFlags plainWorld).outcome ≠ .serving srv port) ∧
      (∀ err : GoString,
        (main simpleLRU newSimple zeroPoolFlags plainWorld).outcome ≠
          .listenFailed srv err)) :=
  main_outcome simpleLRU newSimple zeroPoolFlags plainWorld (LRU.New 1000 3600000000000)
    rfl rfl rfl

/-- With the port flag at 70000 `main` registers the service and ends through
the `log.Fatal` of line 120 without accepting a request. -/
theorem main_port_out_of_range :
    (main simpleLRU newSimple { zeroPoolFlags with port := 70000, maxRPCs := 100 }
        plainWorld).outcome =
      .listenFailed
        { cache := LRU.New 1000 3600000000000, allowedReqs := { cap := 100, len := 100 } }
        (plainWorld.invalidPort 70000) :=
  rfl

/-! ## Least-recently-used order of the engine -/

theorem keys_filter (es : List Entry) (k : ByteSlice) :
    (es.filter (fun x => x.key != k)).map Entry.key =
      (es.map Entry.key).filter (fun a => a != k) := by
  rw [List.filter_map]
  rfl

theorem filter_ne_of_not_mem (keys : List ByteSlice) (k : ByteSlice) (h : k ∉ keys) :
    keys.filter (fun a => a != k) = keys := by
  rw [List.filter_eq_self]
  intro a ha
  have : a ≠ k := fun e => h (e ▸ ha)
  simpa using this

theorem indexOf_head (k : ByteSlice) (log : List ByteSlice) : (k :: log).indexOf k = 0 := by
  simp [List.indexOf_cons]

theorem indexOf_tail (a k : ByteSlice) (log : List ByteSlice) (h : a ≠ k) :
    (k :: log).indexOf a = log.indexOf a + 1 := by
  have hb : (k == a) = false := by simpa using Ne.symm h
  rw [List.indexOf_cons, hb]
  rfl

theorem ordered_touch (keys keys1 log : List ByteSlice) (k : ByteSlice)
    (hp : keys.Pairwise (fun a b => log.indexOf a < log.indexOf b))
    (hm : ∀ x ∈ keys, x ∈ log)
    (hsub : keys1.Sublist (k :: keys.filter (fun a => a != k))) :
    keys1.Pairwise (fun a b => (k :: log).indexOf a < (k :: log).indexOf b) ∧
      ∀ x ∈ keys1, x ∈ k :: log := by
  constructor
  · refine List.Pairwise.sublist hsub ?_
    rw [List.pairwise_cons]
    constructor
    · intro b hb
      have hbk : b ≠ k := by simpa using (List.mem_filter.mp hb).2
      rw [indexOf_head, indexOf_tail _ _ _ hbk]
      exact Nat.succ_pos _
    · have hf : (keys.filter (fun a => a != k)).Pairwise
          (fun a b => log.indexOf a < log.indexOf b) :=
        List.Pairwise.sublist (List.filter_sublist keys) hp
      refine List.Pairwise.imp_of_mem ?_ hf
      intro a b ha hb hab
      have hak : a ≠ k := by simpa using (List.mem_filter.mp ha).2
      have hbk : b ≠ k := by simpa using (List.mem_filter.mp hb).2
      rw [indexOf_tail _ _ _ hak, indexOf_tail _ _ _ hbk]
      exact Nat.succ_lt_succ hab
  · intro x hx
    rcases List.mem_cons.mp (hsub.subset hx) with h | h
    · simp [h]
    · exact List.mem_cons_of_mem _ (hm x (List.mem_filter.mp h).1)

theorem any_key_eq_false (es : List Entry) (k : ByteSlice) (h : k ∉ es.map Entry.key) :
    es.any (fun x => x.key == k) = false := by
  rw [List.any_eq_false]
  intro x hx hxk
  exact h (List.mem_map.mpr ⟨x, hx, by simpa using hxk⟩)

theorem not_mem_keys_of_any_false (es : List Entry) (k : ByteSlice)
    (h : es.any (fun x => x.key == k) = false) : k ∉ es.map Entry.key := by
  rw [List.any_eq_false] at h
  intro hk
  obtain ⟨x, hx, hxk⟩ := List.mem_map.mp hk
  exact h x hx (by simpa using hxk)

theorem keys_Add_sublist (c : LRU) (k v : ByteSlice) :
    (c.Add k v).keys.Sublist (k :: c.keys.filter (fun a => a != k)) := by
  unfold LRU.Add LRU.keys
  simp only
  split
  · simp only [List.map_cons, keys_filter]
    exact List.Sublist.refl _
  · rename_i hany
    have hk : k ∉ c.entries.map Entry.key :=
      not_mem_keys_of_any_false _ _ (by simpa using hany)
    rw [filter_ne_of_not_mem _ _ hk]
    split
    · have := List.Sublist.map Entry.key
        (List.dropLast_sublist ({ key := k, value := v, touchedAt := c.now } :: c.entries))
      simpa using this
    · simp

theorem find_key_some (es : List Entry) (k : ByteSlice) (e : Entry)
    (h : es.find? (fun x => x.key == k) = some e) : e.key = k ∧ e ∈ es := by
  refine ⟨?_, List.mem_of_find?_eq_some h⟩
  simpa using List.find?_some h

theorem Get_cases (c : LRU) (k : ByteSlice) :
    ((c.Get k).1.2 = true ∧ (c.Get k).2.keys = k :: c.keys.filter (fun a => a != k)) ∨
    ((c.Get k).1.2 = false ∧ (c.Get k).2.keys.Sublist c.keys) := by
  unfold LRU.Get LRU.keys
  split
  · exact Or.inr ⟨rfl, List.Sublist.refl _⟩
  · rename_i e he
    split
    · refine Or.inr ⟨rfl, ?_⟩
      exact List.Sublist.map _ (List.filter_sublist _)
    · refine Or.inl ⟨rfl, ?_⟩
      simp only [List.map_cons, keys_filter, (find_key_some _ _ _ he).1]

theorem Add_now (c : LRU) (k v : ByteSlice) : (c.Add k v).now = c.now := by
  simp only [LRU.Add]
  split
  · rfl
  · split <;> rfl

theorem Get_now (c : LRU) (k : ByteSlice) : (c.Get k).2.now = c.now := by
  simp only [LRU.Get]
  split
  · rfl
  · split <;> rfl

theorem apply_config (c : LRU) (op : Op) :
    (c.apply op).maxCachedEntries = c.maxCachedEntries ∧ (c.apply op).ttl = c.ttl := by
  cases op with
  | add k v =>
    simp only [LRU.apply, LRU.Add]
    split
    · exact ⟨rfl, rfl⟩
    · split <;> exact ⟨rfl, rfl⟩
  | get k =>
    simp only [LRU.apply, LRU.Get]
    split
    · exact ⟨rfl, rfl⟩
    · split <;> exact ⟨rfl, rfl⟩
  | wait d => exact ⟨rfl, rfl⟩

theorem step_ordered (t : Logged) (op : Op) (h : t.Ordered) : (t.step op).Ordered := by
  obtain ⟨hp, hm⟩ := h
  cases op with
  | add k v =>
    exact ordered_touch t.cache.keys _ (touchedKeys t.log) k hp hm
      (keys_Add_sublist t.cache k v)
  | get k =>
    rcases Get_cases t.cache k with ⟨hok, hkeys⟩ | ⟨hok, hsub⟩
    · have := ordered_touch t.cache.keys ((t.cache.Get k).2.keys) (touchedKeys t.log) k hp hm
        (hkeys ▸ List.Sublist.refl _)
      simpa [Logged.Ordered, Logged.step, LRU.apply, LRU.touched, hok, touchedKeys] using this
    · have h1 := List.Pairwise.sublist hsub hp
      have h2 : ∀ x ∈ (t.cache.Get k).2.keys, x ∈ touchedKeys t.log :=
        fun x hx => hm x (hsub.subset hx)
      simpa [Logged.Ordered, Logged.step, LRU.apply, LRU.touched, hok] using
        (And.intro h1 h2)
  | wait d => exact ⟨hp, hm⟩

theorem run_ordered (ops : List Op) (t : Logged) (h : t.Ordered) : (t.run ops).Ordered := by
  induction ops generalizing t with
  | nil => exact h
  | cons op rest ih => exact ih (t.step op) (step_ordered t op h)

theorem run_config (ops : List Op) (t : Logged) :
    (t.run ops).cache.maxCachedEntries = t.cache.maxCachedEntries ∧
      (t.run ops).cache.ttl = t.cache.ttl := by
  induction ops generalizing t with
  | nil => exact ⟨rfl, rfl⟩
  | cons op rest ih =>
    have h1 := ih (t.step op)
    have h2 := apply_config t.cache op
    exact ⟨h1.1.trans h2.1, h1.2.trans h2.2⟩

theorem run_now (ops : List Op) (t : Logged) :
    (t.run ops).cache.now = t.cache.now + elapsed ops := by
  induction ops generalizing t with
  | nil => simp [Logged.run, elapsed]
  | cons op rest ih =>
    have h1 : (t.run (op :: rest)).cache.now = (t.step op).cache.now + elapsed rest :=
      ih (t.step op)
    rw [h1]
    cases op with
    | add k v =>
      simp only [Logged.step, LRU.apply, Add_now, elapsed]
    | get k =>
      simp only [Logged.step, LRU.apply, Get_now, elapsed]
    | wait d =>
      simp only [Logged.step, LRU.apply, LRU.wait, elapsed]
      omega

theorem history_ordered (cap ttl : Int) (ops : List Op) : (history cap ttl ops).Ordered :=
  run_ordered ops _ ⟨List.Pairwise.nil, by simp [LRU.keys, LRU.New]⟩

theorem history_now (cap ttl : Int) (ops : List Op) :
    (history cap ttl ops).cache.now = elapsed ops := by
  have := run_now ops { cache := LRU.New cap ttl, log := [] }
  simpa [history, LRU.New] using this

theorem history_snoc (cap ttl : Int) (ops : List Op) (op : Op) :
    history cap ttl (ops ++ [op]) = (history cap ttl ops).step op := by
  simp [history, Logged.run, List.foldl_append]

theorem ordered_nodup (t : Logged) (h : t.Ordered) : t.cache.keys.Nodup :=
  List.Pairwise.imp (fun hab e => by subst e; exact absurd hab (Nat.lt_irrefl _)) h.1

theorem lastTouch_cons_same (x : Touch) (log : List Touch) :
    lastTouch (x :: log) x.key = some x.time := by
  simp [lastTouch]

theorem lastTouch_cons_ne (x : Touch) (log : List Touch) (k : ByteSlice) (h : k ≠ x.key) :
    lastTouch (x :: log) k = lastTouch log k := by
  have hb : (x.key == k) = false := by simpa using Ne.symm h
  simp [lastTouch, List.find?_cons, hb]

theorem lastAdded_cons_add (k v : ByteSlice) (time : Int) (log : List Touch) :
    lastAdded ({ key := k, time := time, added := some v } :: log) k = some v := by
  simp [lastAdded]

theorem lastAdded_cons_get (k k1 : ByteSlice) (time : Int) (log : List Touch) :
    lastAdded ({ key := k, time := time, added := none } :: log) k1 = lastAdded log k1 := by
  simp [lastAdded, List.find?_cons]

theorem lastAdded_cons_ne (x : Touch) (log : List Touch) (k : ByteSlice) (h : k ≠ x.key) :
    lastAdded (x :: log) k = lastAdded log k := by
  have hb : (x.key == k) = false := by simpa using Ne.symm h
  simp [lastAdded, List.find?_cons, hb]

theorem Add_mem (c : LRU) (k v : ByteSlice) (e : Entry) (h : e ∈ (c.Add k v).entries) :
    e = { key := k, value := v, touchedAt := c.now } ∨ (e ∈ c.entries ∧ e.key ≠ k) := by
  unfold LRU.Add at h
  simp only at h
  split at h
  · rcases List.mem_cons.mp h with h1 | h1
    · exact Or.inl h1
    · have := List.mem_filter.mp h1
      exact Or.inr ⟨this.1, by simpa using this.2⟩
  · rename_i hany
    have hk : k ∉ c.entries.map Entry.key :=
      not_mem_keys_of_any_false _ _ (by simpa using hany)
    have hmem : e ∈ { key := k, value := v, touchedAt := c.now } :: c.entries := by
      split at h
      · exact (List.dropLast_sublist _).subset h
      · exact h
    rcases List.mem_cons.mp hmem with h1 | h1
    · exact Or.inl h1
    · exact Or.inr ⟨h1, fun hek => hk (List.mem_map.mpr ⟨e, h1, hek⟩)⟩

theorem Get_ok_entries (c : LRU) (k : ByteSlice) (hok : (c.Get k).1.2 = true) :
    ∃ e0 ∈ c.entries, e0.key = k ∧ (c.Get k).1.1 = e0.value ∧
      (c.Get k).2.entries =
        { e0 with touchedAt := c.now } :: c.entries.filter (fun x => x.key != k) := by
  unfold LRU.Get at hok ⊢
  split
  · rename_i hnone
    rw [hnone] at hok
    simp at hok
  · rename_i e he
    rw [he] at hok
    simp only at hok
    split
    · rename_i hexp
      simp [hexp] at hok
    · exact ⟨e, (find_key_some _ _ _ he).2, (find_key_some _ _ _ he).1, rfl, rfl⟩

theorem Get_fail_entries (c : LRU) (k : ByteSlice) (hok : (c.Get k).1.2 = false) :
    (c.Get k).2.entries.Sublist c.entries := by
  unfold LRU.Get at hok ⊢
  split
  · exact List.Sublist.refl _
  · rename_i e he
    rw [he] at hok
    simp only at hok
    split
    · exact List.filter_sublist _
    · rename_i hexp
      simp [hexp] at hok

theorem step_synced (t : Logged) (op : Op) (h : t.Synced) : (t.step op).Synced := by
  cases op with
  | add k v =>
    intro e he
    rcases Add_mem t.cache k v e he with h1 | ⟨h1, h2⟩
    · subst h1
      exact ⟨lastTouch_cons_same { key := k, time := t.cache.now, added := some v } t.log,
        lastAdded_cons_add k v t.cache.now t.log⟩
    · have := h e h1
      simp only [Logged.step, LRU.touched]
      rw [lastTouch_cons_ne _ _ _ h2, lastAdded_cons_ne _ _ _ h2]
      exact this
  | get k =>
    cases hok : (t.cache.Get k).1.2 with
    | true =>
      obtain ⟨e0, he0, hk0, _, hentries⟩ := Get_ok_entries t.cache k hok
      intro e he
      simp only [Logged.step, LRU.apply, LRU.touched, hok, if_true] at he ⊢
      rw [hentries] at he
      rcases List.mem_cons.mp he with h1 | h1
      · subst h1
        simp only [hk0]
        refine ⟨lastTouch_cons_same { key := k, time := t.cache.now, added := none } t.log, ?_⟩
        rw [lastAdded_cons_get, ← hk0]
        exact (h e0 he0).2
      · have hm := List.mem_filter.mp h1
        have hne : e.key ≠ k := by simpa using hm.2
        rw [lastTouch_cons_ne _ _ _ hne, lastAdded_cons_ne _ _ _ hne]
        exact h e hm.1
    | false =>
      have hsub := Get_fail_entries t.cache k hok
      intro e he
      simp only [Logged.step, LRU.apply, LRU.touched, hok] at he ⊢
      exact h e (hsub.subset he)
  | wait d => exact h

theorem run_synced (ops : List Op) (t : Logged) (h : t.Synced) : (t.run ops).Synced := by
  induction ops generalizing t with
  | nil => exact h
  | cons op rest ih => exact ih (t.step op) (step_synced t op h)

theorem history_synced (cap ttl : Int) (ops : List Op) : (history cap ttl ops).Synced :=
  run_synced ops _ (by intro e he; simp [LRU.New] at he)

theorem find_of_mem_nodup (es : List Entry) (e : Entry)
    (hnd : (es.map Entry.key).Nodup) (he : e ∈ es) :
    es.find? (fun x => x.key == e.key) = some e := by
  induction es with
  | nil => simp at he
  | cons x xs ih =>
    simp only [List.map_cons, List.nodup_cons] at hnd
    by_cases hx : x.key = e.key
    · rcases List.mem_cons.mp he with h | h
      · subst h
        simp
      · exact absurd (hx ▸ List.mem_map.mpr ⟨e, h, rfl⟩) hnd.1
    · have hne : e ≠ x := fun h => hx (h ▸ rfl)
      have hmem : e ∈ xs := by
        rcases List.mem_cons.mp he with h | h
        · exact absurd h hne
        · exact h
      have hb : (x.key == e.key) = false := by simpa using hx
      rw [List.find?_cons, hb]
      exact ih hnd.2 hmem

theorem Get_absent (c : LRU) (k : ByteSlice) (h : k ∉ c.keys) : c.Get k = (([], false), c) := by
  have hnone : c.entries.find? (fun e => e.key == k) = none := by
    rw [List.find?_eq_none]
    intro x hx hxk
    exact h (List.mem_map.mpr ⟨x, hx, by simpa using hxk⟩)
  simp [LRU.Get, hnone]

theorem Get_fresh (c : LRU) (e : Entry) (hnd : c.keys.Nodup) (he : e ∈ c.entries)
    (hf : c.now - e.touchedAt ≤ c.ttl) : (c.Get e.key).1 = (e.value, true) := by
  have hx : ¬ c.now - e.touchedAt > c.ttl := by omega
  simp [LRU.Get, find_of_mem_nodup c.entries e hnd he, hx]

theorem Get_expired (c : LRU) (e : Entry) (hnd : c.keys.Nodup) (he : e ∈ c.entries)
    (hx : c.now - e.touchedAt > c.ttl) : (c.Get e.key).1 = ([], false) := by
  simp [LRU.Get, find_of_mem_nodup c.entries e hnd he, hx]

theorem Add_full (c : LRU) (k v : ByteSlice) (n : Nat) (hn : 1 ≤ n)
    (hcap : c.maxCachedEntries = n) (hfull : c.entries.length = n) (hk : k ∉ c.keys) :
    c.Add k v =
      { c with entries := { key := k, value := v, touchedAt := c.now } :: c.entries.dropLast } := by
  have hne : c.entries ≠ [] := by
    intro h
    rw [h] at hfull
    simp at hfull
    omega
  have hany := any_key_eq_false c.entries k hk
  have hgt : (((c.entries.length + 1 : Nat) : Int) > c.maxCachedEntries) := by
    rw [hcap, hfull]
    push_cast
    omega
  unfold LRU.Add
  simp only [hany, List.length_cons, hgt, if_true, List.dropLast_cons_of_ne_nil hne]
  simp

/-- C7 (as stated, refuted): in an engine of capacity 2 and time-to-live one
second, after `Add` of three keys (which evicts the first) and two seconds
without a touch, the second key is still resident and was not evicted, yet
`CacheSrv.Get` of it returns the record-not-found error. -/
theorem get_resident_expired :
    testKey2 ∈ (((history 2 1000000000 twoAdds).cache.Add testKey3 testVal3).wait
        2000000000).keys ∧
    ∃ r, CacheSrv.Get simpleLRU
        { cache := ((history 2 1000000000 twoAdds).cache.Add testKey3 testVal3).wait
            2000000000,
          allowedReqs := { cap := 1, len := 1 } }
        .token ⟨testKey2⟩ ⟨[]⟩ = some r ∧
      r.err = some (errNotFound testKey2) :=
  ⟨by decide, _, rfl, by decide⟩

/-- C7 (amended): take an engine of capacity `n ≥ 1` after any history of
`Add`, `Get` and waiting, holding `n` keys, and `Add` a key that is not
resident. The key at the tail is evicted and no other: the resident keys
become the new key followed by the former ones without the tail, occupancy
stays `n`, and every other formerly resident key was touched (by an `Add`,
a duplicate `Add` included, or a successful `Get`) later than the evicted
one. At any time afterwards `CacheSrv.Get` of the evicted key returns the
record-not-found error; `CacheSrv.Get` of a resident key returns nil and the
value of the latest `Add` of that key when the latest touch of the key in
the history is no more than `ttl` ago, and the record-not-found error when
it is more than `ttl` ago. -/
theorem add_evicts_least_recent (n : Nat) (ttl : Int) (ops : List Op) (k v : ByteSlice)
    (pool : Chan) (t t2 : Logged)
    (hn : 1 ≤ n) (ht : t = history n ttl ops)
    (ht2 : t2 = history n ttl (ops ++ [.add k v]))
    (hfull : t.cache.entries.length = n) (hk : k ∉ t.cache.keys)
    (hwf : pool.WF) (htok : 0 < pool.len) :
    ∃ victim,
      t.cache.keys.getLast? = some victim ∧
      t2.cache = t.cache.Add k v ∧
      t2.cache.keys = k :: t.cache.keys.dropLast ∧
      t2.cache.entries.length = n ∧
      victim ∉ t2.cache.keys ∧
      (∀ r ∈ t.cache.keys, r ≠ victim →
        r ∈ t2.cache.keys ∧
        (touchedKeys t.log).indexOf r < (touchedKeys t.log).indexOf victim) ∧
      victim ∈ touchedKeys t.log ∧
      t2.cache.now = elapsed ops ∧
      (∀ (d : Nat) (reply : GetReply), ∃ r,
        CacheSrv.Get simpleLRU { cache := t2.cache.wait d, allowedReqs := pool } .token
          ⟨stringOf victim⟩ reply = some r ∧
        r.err = some (errNotFound (stringOf victim)) ∧ r.reply = reply) ∧
      (∀ key ∈ t2.cache.keys, ∃ (time : Int) (val : ByteSlice),
        lastTouch t2.log key = some time ∧ lastAdded t2.log key = some val ∧
        ∀ (d : Nat) (reply : GetReply),
          (elapsed ops + d - time ≤ ttl → ∃ r,
            CacheSrv.Get simpleLRU { cache := t2.cache.wait d, allowedReqs := pool } .token
              ⟨stringOf key⟩ reply = some r ∧
            r.err = none ∧ r.reply.Value = stringOf val) ∧
          (elapsed ops + d - time > ttl → ∃ r,
            CacheSrv.Get simpleLRU { cache := t2.cache.wait d, allowedReqs := pool } .token
              ⟨stringOf key⟩ reply = some r ∧
            r.err = some (errNotFound (stringOf key)) ∧ r.reply = reply)) := by
  have hord : t.Ordered := ht ▸ history_ordered n ttl ops
  have hcfg : t.cache.maxCachedEntries = n ∧ t.cache.ttl = ttl := by
    have := run_config ops { cache := LRU.New n ttl, log := [] }
    rw [ht]
    exact this
  have hnow : t.cache.now = elapsed ops := by
    rw [ht]
    exact history_now n ttl ops
  have hstep : t2 = t.step (.add k v) := by
    rw [ht2, ht]
    exact history_snoc n ttl ops _
  have hcache : t2.cache = t.cache.Add k v := by
    rw [hstep]
    rfl
  have hsync : t2.Synced := ht2 ▸ history_synced n ttl _
  have hnd : t.cache.keys.Nodup := ordered_nodup t hord
  have hkne : t.cache.keys ≠ [] := by
    intro h
    have hl : t.cache.keys.length = n := by simp [LRU.keys, hfull]
    rw [h] at hl
    simp at hl
    omega
  have hAdd := Add_full t.cache k v n hn hcfg.1 hfull hk
  have hsplit : t.cache.keys.dropLast ++ [t.cache.keys.getLast hkne] = t.cache.keys :=
    List.dropLast_concat_getLast hkne
  have hkeys : t2.cache.keys = k :: t.cache.keys.dropLast := by
    rw [hcache, hAdd]
    simp [LRU.keys]
  have hnd2 : (t.cache.keys.dropLast ++ [t.cache.keys.getLast hkne]).Nodup := by
    rw [hsplit]
    exact hnd
  have hvd : t.cache.keys.getLast hkne ∉ t.cache.keys.dropLast := by
    intro hmem
    have := (List.nodup_append.mp hnd2).2.2
    exact this hmem (List.mem_singleton_self _)
  have hvk : t.cache.keys.getLast hkne ≠ k := by
    intro h
    exact hk (h ▸ List.getLast_mem hkne)
  have hvnot : t.cache.keys.getLast hkne ∉ t2.cache.keys := by
    rw [hkeys]
    simp only [List.mem_cons, not_or]
    exact ⟨hvk, hvd⟩
  have hnd3 : t2.cache.keys.Nodup := by
    rw [hkeys, List.nodup_cons]
    exact ⟨fun h => hk ((List.dropLast_sublist _).subset h),
      List.Nodup.sublist (List.dropLast_sublist _) hnd⟩
  have hpw : (t.cache.keys.dropLast ++ [t.cache.keys.getLast hkne]).Pairwise
      (fun a b => (touchedKeys t.log).indexOf a < (touchedKeys t.log).indexOf b) := by
    rw [hsplit]
    exact hord.1
  have hnow2 : t2.cache.now = elapsed ops := by
    rw [hcache, Add_now, hnow]
  have httl2 : t2.cache.ttl = ttl := by
    rw [hcache, hAdd]
    exact hcfg.2
  have hsrv : ∀ (d : Nat) (key : GoString) (reply : GetReply),
      CacheSrv.Get simpleLRU { cache := t2.cache.wait d, allowedReqs := pool } .token
        ⟨key⟩ reply = some _ :=
    fun d key reply =>
      get_token_eq simpleLRU { cache := t2.cache.wait d, allowedReqs := pool } ⟨key⟩ reply
        hwf htok
  refine ⟨t.cache.keys.getLast hkne, List.getLast?_eq_getLast _ hkne, hcache, hkeys, ?_,
    hvnot, ?_, hord.2 _ (List.getLast_mem hkne), hnow2, ?_, ?_⟩
  · rw [hcache, hAdd]
    have : t.cache.entries.length ≠ 0 := by omega
    simp only [List.length_cons, List.length_dropLast]
    omega
  · intro r hr hrv
    have hrd : r ∈ t.cache.keys.dropLast := by
      rw [← hsplit] at hr
      rcases List.mem_append.mp hr with h | h
      · exact h
      · exact absurd (List.mem_singleton.mp h) hrv
    refine ⟨by rw [hkeys]; exact List.mem_cons_of_mem _ hrd, ?_⟩
    exact (List.pairwise_append.mp hpw).2.2 r hrd _ (List.mem_singleton_self _)
  · intro d reply
    have hv2 : t.cache.keys.getLast hkne ∉ (t2.cache.wait d).keys := hvnot
    refine ⟨_, hsrv d (stringOf (t.cache.keys.getLast hkne)) reply, ?_, ?_⟩ <;>
      simp [getBody, simpleLRU, bytesOf, stringOf, Get_absent _ _ hv2]
  · intro key hkey
    obtain ⟨e, he, hek⟩ := List.mem_map.mp hkey
    obtain ⟨hlt, hla⟩ := hsync e he
    rw [hek] at hlt hla
    refine ⟨e.touchedAt, e.value, hlt, hla, ?_⟩
    intro d reply
    have he2 : e ∈ (t2.cache.wait d).entries := he
    have hnd4 : (t2.cache.wait d).keys.Nodup := hnd3
    have hnowd : (t2.cache.wait d).now = elapsed ops + d := by
      simp [LRU.wait, hnow2]
    have httld : (t2.cache.wait d).ttl = ttl := httl2
    constructor
    · intro hfresh
      have hget := Get_fresh (t2.cache.wait d) e hnd4 he2 (by rw [hnowd, httld]; exact hfresh)
      rw [hek] at hget
      refine ⟨_, hsrv d (stringOf key) reply, ?_, ?_⟩ <;>
        simp [getBody, simpleLRU, bytesOf, stringOf, hget]
    · intro hold
      have hget := Get_expired (t2.cache.wait d) e hnd4 he2 (by rw [hnowd, httld]; exact hold)
      rw [hek] at hget
      refine ⟨_, hsrv d (stringOf key) reply, ?_, ?_⟩ <;>
        simp [getBody, simpleLRU, bytesOf, stringOf, hget]

theorem add_evicts_least_recent_witness :
    ∃ victim,
      (history 2 1000000000 twoAdds).cache.keys.getLast? = some victim ∧
      (history 2 1000000000 (twoAdds ++ [.add testKey3 testVal3])).cache =
        (history 2 1000000000 twoAdds).cache.Add testKey3 testVal3 ∧
      (history 2 1000000000 (twoAdds ++ [.add testKey3 testVal3])).cache.keys =
        testKey3 :: (history 2 1000000000 twoAdds).cache.keys.dropLast ∧
      (history 2 1000000000 (twoAdds ++ [.add testKey3 testVal3])).cache.entries.length = 2 ∧
      victim ∉ (history 2 1000000000 (twoAdds ++ [.add testKey3 testVal3])).cache.keys ∧
      (∀ r ∈ (history 2 1000000000 twoAdds).cache.keys, r ≠ victim →
        r ∈ (history 2 1000000000 (twoAdds ++ [.add testKey3 testVal3])).cache.keys ∧
        (touchedKeys (history 2 1000000000 twoAdds).log).indexOf r <
          (touchedKeys (history 2 1000000000 twoAdds).log).indexOf victim) ∧
      victim ∈ touchedKeys (history 2 1000000000 twoAdds).log ∧
      (history 2 1000000000 (twoAdds ++ [.add testKey3 testVal3])).cache.now =
        elapsed twoAdds ∧
      (∀ (d : Nat) (reply : GetReply), ∃ r,
        CacheSrv.Get simpleLRU
          { cache := (history 2 1000000000 (twoAdds ++ [.add testKey3 testVal3])).cache.wait d,
            allowedReqs := { cap := 1, len := 1 } } .token
          ⟨stringOf victim⟩ reply = some r ∧
        r.err = some (errNotFound (stringOf victim)) ∧ r.reply = reply) ∧
      (∀ key ∈ (history 2 1000000000 (twoAdds ++ [.add testKey3 testVal3])).cache.keys,
        ∃ (time : Int) (val : ByteSlice),
        lastTouch (history 2 1000000000 (twoAdds ++ [.add testKey3 testVal3])).log key =
          some time ∧
        lastAdded (history 2 1000000000 (twoAdds ++ [.add testKey3 testVal3])).log key =
          some val ∧
        ∀ (d : Nat) (reply : GetReply),
          (elapsed twoAdds + d - time ≤ 1000000000 → ∃ r,
            CacheSrv.Get simpleLRU
              { cache :=
                  (history 2 1000000000 (twoAdds ++ [.add testKey3 testVal3])).cache.wait d,
                allowedReqs := { cap := 1, len := 1 } } .token
              ⟨stringOf key⟩ reply = some r ∧
            r.err = none ∧ r.reply.Value = stringOf val) ∧
          (elapsed twoAdds + d - time > 1000000000 → ∃ r,
            CacheSrv.Get simpleLRU
              { cache :=
                  (history 2 1000000000 (twoAdds ++ [.add testKey3 testVal3])).cache.wait d,
                allowedReqs := { cap := 1, len := 1 } } .token
              ⟨stringOf key⟩ reply = some r ∧
            r.err = some (errNotFound (stringOf key)) ∧ r.reply = reply)) :=
  add_evicts_least_recent 2 1000000000 twoAdds testKey3 testVal3 { cap := 1, len := 1 }
    (history 2 1000000000 twoAdds) (history 2 1000000000 (twoAdds ++ [.add testKey3 testVal3]))
    (by decide) rfl rfl (by decide) (by decide) (by decide) (by decide)

/-- The scenario of `runTests` on the modelled engine of capacity 2: adding
keys 1, 2, 3 evicts key 1; after `Get` of 3 and of 2, adding key 4 evicts
key 3; after a duplicate `Add` of key 2, adding key 5 evicts key 4. -/
theorem runTests_scenario :
    (history 2 1000000000 runTestsOps1).cache.keys = [testKey3, testKey2] ∧
    getAfter runTestsOps1 testKey3 = some (none, testVal3) ∧
    getAfter (runTestsOps1 ++ [.get testKey3]) testKey2 = some (none, testVal2) ∧
    getAfter (runTestsOps1 ++ [.get testKey3, .get testKey2]) testKey1 =
      some (some (errNotFound testKey1), []) ∧
    (history 2 1000000000 runTestsOps2).cache.keys = [testKey4, testKey2] ∧
    getAfter runTestsOps2 testKey3 = some (some (errNotFound testKey3), []) ∧
    (history 2 1000000000 runTestsOps3).cache.keys = [testKey5, testKey2] ∧
    getAfter runTestsOps3 testKey4 = some (some (errNotFound testKey4), []) ∧
    getAfter runTestsOps3 testKey2 = some (none, testVal2) ∧
    getAfter runTestsOps3 testKey5 = some (none, testVal5) := by
  decide

end HttpLru
